import Mathlib

/-!
# Afina `mt_blocking` connection handler

A shallow embedding of `ProcessConnection`
(`afina/src/network/mt_blocking/ServerImpl.cpp`, lines 95-175) and theorems
about its parse / argument-fill / execute / respond loop.

The function is stateful C++; here its locals are the fields of `Conn`, the
socket is a script of `read` results, and every effect that a client or the
storage can observe (`Execute`, `send`, `close`) is appended to a trace. The
calls of the logger are left out. The lexer (`Protocol::Parser`), the commands
(`Execute::Command`) and the storage are not part of these sources and are
parameters of the model (`Env`).
-/

namespace Afina.Network.MTblocking

/-- The bytes of a `char` buffer or of a `std::string`. -/
abbrev Bytes := List Char

/-- Number of values of `std::size_t` (64 bits wide): arithmetic on
`arg_remains` wraps modulo this. -/
def SIZE_MOD : Nat := 2 ^ 64

/-- Capacity of `client_buffer` (`char client_buffer[4096]`). -/
def BUFFER_SIZE : Nat := 4096

/-- The line terminator appended to every response (`result += "\r\n"`). -/
def CRLF : Bytes := ['\r', '\n']

/-- The text the inner handler puts in front of `ex.what()`. -/
def SERVER_ERROR : Bytes := "SERVER_ERROR".toList

/-- What a collaborator can raise. The handlers of `ProcessConnection` are
`catch (std::runtime_error &ex)`: they see `runtime` and nothing else. -/
inductive Fault where
  | runtime (what : Bytes)
  | other
deriving DecidableEq, Repr

/-- Effects of `ProcessConnection` that are visible outside it, in the order
they happen. `execute` is recorded when `Execute` is called (whether or not
it then raises), `send` when `send` is called (whether or not it succeeds). -/
inductive Event (Cmd : Type) where
  | execute (cmd : Cmd) (argument : Bytes)
  | send (data : Bytes)
  | close
deriving DecidableEq, Repr

/-- Modelled from the spec: `Protocol::Parser` (`protocol/Parser.h`) is not
among the sources, so the lexer is a parameter. `Parse(input, size, parsed)`
takes the parser state and the unread bytes and either raises or gives the
new state, the number of bytes consumed and whether a full command header
has been recognised; `Build(arg_remains)` yields the command object and the
number of argument bytes it requires; `Reset()` clears the header state. -/
structure Parser (σ Cmd : Type) where
  start : σ
  Parse : σ → Bytes → Except Fault (σ × Nat × Bool)
  Build : σ → Except Fault (σ × Cmd × Nat)
  Reset : σ → σ

/-- The collaborators of `ProcessConnection`: the lexer, the command
execution against the storage (`command_to_execute->Execute(*storage,
argument_for_command, result)`, which may change the storage and either fills
`result` or raises) and the socket's `send` (`true` when the call returned a
positive count; it may depend on everything that happened before). -/
structure Env (σ Cmd Store : Type) where
  lexer : Parser σ Cmd
  Execute : Cmd → Store → Bytes → Store × Except Fault Bytes
  send : List (Event Cmd) → Bytes → Bool

/-- The locals of `ProcessConnection` (lines 97-100), the storage behind the
shared pointer, and the trace of effects so far. -/
structure Conn (σ Cmd Store : Type) where
  arg_remains : Nat
  parser : σ
  argument_for_command : Bytes
  command_to_execute : Option Cmd
  storage : Store
  trace : List (Event Cmd)
deriving DecidableEq, Repr

/-- How one pass of `while (readed_bytes > 0)` over a read ends. -/
inductive Exit where
  /-- the loop condition failed: every byte of the read was consumed -/
  | drained
  /-- `break` at line 122: the lexer consumed nothing -/
  | needMore
  /-- an exception left the loop -/
  | thrown (f : Fault)
  /-- the lexer reported `parsed > readed_bytes`: the length given to
  `memmove` underflows -/
  | undefinedBehaviour
  /-- the model ran out of iterations (shown impossible below) -/
  | outOfFuel
deriving DecidableEq, Repr

/-- Result of the first `if` of the loop body. -/
inductive Step (α : Type) where
  | next (c : α) (client_buffer : Bytes)
  | stop (e : Exit) (c : α) (client_buffer : Bytes)
deriving DecidableEq, Repr

/-- Result of the third `if` of the loop body. -/
inductive Ran (α : Type) where
  | done (c : α)
  | raised (f : Fault) (c : α)
deriving DecidableEq, Repr

variable {σ Cmd Store : Type}

/-- Lines 115-118: the value of `arg_remains` after `Build` stored the
declared length `L` in it: `if (arg_remains > 0) arg_remains += 2;` on a
`std::size_t`. -/
def argRemainsAfterBuild (L : Nat) : Nat :=
  if L > 0 then (L + 2) % SIZE_MOD else L

/-- Lines 113-119: when `Parse` found a complete header, `Build` gives the
command and stores its argument length in `arg_remains`, to which 2 is added
for the terminator if it is not 0. -/
def buildCommand (env : Env σ Cmd Store) (c : Conn σ Cmd Store) (p : σ) (found : Bool) :
    Except Fault (Conn σ Cmd Store) :=
  if found then
    match env.lexer.Build p with
    | .error f => .error f
    | .ok (p1, cmd, L) =>
      .ok { c with parser := p1, command_to_execute := some cmd,
                   arg_remains := argRemainsAfterBuild L }
  else .ok { c with parser := p }

/-- Lines 121-126: `break` when nothing was parsed, otherwise
`memmove(client_buffer, client_buffer + parsed, readed_bytes - parsed)` and
`readed_bytes -= parsed`. -/
def shiftParsed (c : Conn σ Cmd Store) (parsed : Nat) (client_buffer : Bytes) :
    Step (Conn σ Cmd Store) :=
  if parsed = 0 then .stop .needMore c client_buffer
  else if client_buffer.length < parsed then .stop .undefinedBehaviour c client_buffer
  else .next c (client_buffer.drop parsed)

/-- Lines 111-127, `if (!command_to_execute) { ... }`: feed the lexer, build
the command when a header is complete, `break` when nothing was consumed,
otherwise shift the consumed bytes out of `client_buffer`. -/
def parseHeader (env : Env σ Cmd Store) (c : Conn σ Cmd Store) (client_buffer : Bytes) :
    Step (Conn σ Cmd Store) :=
  match c.command_to_execute with
  | some _ => .next c client_buffer
  | none =>
    match env.lexer.Parse c.parser client_buffer with
    | .error f => .stop (.thrown f) c client_buffer
    | .ok (p, parsed, found) =>
      match buildCommand env c p found with
      | .error f => .stop (.thrown f) { c with parser := p } client_buffer
      | .ok c1 => shiftParsed c1 parsed client_buffer

/-- Lines 129-137, `if (command_to_execute && arg_remains > 0) { ... }`: move
`min(arg_remains, readed_bytes)` bytes from the front of `client_buffer` to
the end of `argument_for_command`. -/
def fillArgument (c : Conn σ Cmd Store) (client_buffer : Bytes) : Conn σ Cmd Store × Bytes :=
  if c.command_to_execute.isSome ∧ c.arg_remains > 0 then
    let to_read := min c.arg_remains client_buffer.length
    ({ c with argument_for_command := c.argument_for_command ++ client_buffer.take to_read,
              arg_remains := c.arg_remains - to_read },
     client_buffer.drop to_read)
  else (c, client_buffer)

/-- Lines 139-157, `if (command_to_execute && arg_remains == 0) { ... }`:
execute, append the terminator, send, reset the per-command state. A
`std::runtime_error` from `Execute` is caught at line 145, the text
`"SERVER_ERROR" + ex.what()` is stored in `result`, and the exception is
thrown again (line 147), so that `result` is never sent. -/
def runCommand (env : Env σ Cmd Store) (c : Conn σ Cmd Store) : Ran (Conn σ Cmd Store) :=
  match c.command_to_execute with
  | none => .done c
  | some cmd =>
    if c.arg_remains = 0 then
      let c1 := { c with trace := c.trace ++ [Event.execute cmd c.argument_for_command] }
      match env.Execute cmd c.storage c.argument_for_command with
      | (st, .error (.runtime what)) =>
        let _result := SERVER_ERROR ++ what
        .raised (.runtime what) { c1 with storage := st }
      | (st, .error .other) => .raised .other { c1 with storage := st }
      | (st, .ok result) =>
        let result := result ++ CRLF
        let c2 := { c1 with storage := st, trace := c1.trace ++ [Event.send result] }
        if env.send c1.trace result then
          .done { c2 with command_to_execute := none, argument_for_command := [],
                          parser := env.lexer.Reset c2.parser }
        else .raised (.runtime "Failed to send response".toList) c2
    else .done c

/-- Lines 109-158, `while (readed_bytes > 0) { ... }` on the bytes of one
read; `client_buffer` here is the list of the `readed_bytes` unread bytes.
The first argument bounds the number of iterations. -/
def processBuffer (env : Env σ Cmd Store) :
    Nat → Conn σ Cmd Store → Bytes → Exit × Conn σ Cmd Store × Bytes
  | 0, c, client_buffer => (.outOfFuel, c, client_buffer)
  | fuel + 1, c, client_buffer =>
    if client_buffer.length = 0 then (.drained, c, client_buffer)
    else
      match parseHeader env c client_buffer with
      | .stop e c1 b1 => (e, c1, b1)
      | .next c1 b1 =>
        match runCommand env (fillArgument c1 b1).1 with
        | .raised f c3 => (.thrown f, c3, (fillArgument c1 b1).2)
        | .done c3 => processBuffer env fuel c3 (fillArgument c1 b1).2

/-- Iterations that are always enough for a read of the given length. -/
def passFuel (client_buffer : Bytes) : Nat := 2 * client_buffer.length + 2

/-- One pass of the inner loop over the bytes of one read. -/
def processRead (env : Env σ Cmd Store) (c : Conn σ Cmd Store) (client_buffer : Bytes) :
    Exit × Conn σ Cmd Store × Bytes :=
  processBuffer env (passFuel client_buffer) c client_buffer

/-- What one call of `read(client_socket, client_buffer, sizeof(client_buffer))`
returns: the bytes it stored (none at all: the peer closed, `read` returned
0) or a failure (`read` returned -1). -/
inductive ReadResult where
  | data (bytes : Bytes)
  | failed
deriving DecidableEq, Repr

/-- One evaluation of the condition of the outer loop (lines 105-106): what
`read` returns and what `running.load()` gives if it is consulted. -/
structure ReadStep where
  result : ReadResult
  running : Bool
deriving DecidableEq, Repr

/-- How the outer loop is left. -/
inductive LoopExit where
  /-- the script is exhausted: the thread is blocked in `read` -/
  | blockedInRead
  /-- the loop condition failed with this value of `readed_bytes` -/
  | exited (readed_bytes : Int)
  | thrown (f : Fault)
  | undefinedBehaviour
  | outOfFuel
deriving DecidableEq, Repr

/-- What the outer loop does once the pass over a read is over: it goes back
to `read` (the continuation `again`) unless something left the loop. -/
def afterPass (again : Conn σ Cmd Store → LoopExit × Conn σ Cmd Store) :
    Exit × Conn σ Cmd Store × Bytes → LoopExit × Conn σ Cmd Store
  | (.drained, c1, _) => again c1
  | (.needMore, c1, _) => again c1
  | (.thrown f, c1, _) => (.thrown f, c1)
  | (.undefinedBehaviour, c1, _) => (.undefinedBehaviour, c1)
  | (.outOfFuel, c1, _) => (.outOfFuel, c1)

/-- Lines 105-159: the outer loop. Each `read` overwrites `client_buffer`
from its start, so bytes left there by a `break` of the inner loop are gone. -/
def readLoop (env : Env σ Cmd Store) :
    List ReadStep → Conn σ Cmd Store → LoopExit × Conn σ Cmd Store
  | [], c => (.blockedInRead, c)
  | step :: rest, c =>
    match step.result with
    | .failed => (.exited (-1), c)
    | .data client_buffer =>
      if 0 < client_buffer.length ∧ (step.running = true ∨ c.command_to_execute.isSome) then
        afterPass (fun c1 => readLoop env rest c1) (processRead env c client_buffer)
      else (.exited client_buffer.length, c)

/-- How `ProcessConnection` ends. -/
inductive Status where
  /-- still blocked in `read` when the script ends -/
  | blockedInRead
  /-- the function returned -/
  | returned
  /-- an exception that is not a `std::runtime_error` left the function -/
  | propagated
  | undefinedBehaviour
  | outOfFuel
deriving DecidableEq, Repr

/-- Lines 170-174: `close(client_socket)` and the reset of the per-command
state. -/
def closeConnection (env : Env σ Cmd Store) (c : Conn σ Cmd Store) : Conn σ Cmd Store :=
  { c with trace := c.trace ++ [Event.close], command_to_execute := none,
           argument_for_command := [], parser := env.lexer.Reset c.parser }

/-- Lines 161-175: after the loop `readed_bytes == 0` is a closed connection
and any other value throws a `std::runtime_error`. The handler at line 166
catches `std::runtime_error` and nothing else, after which line 170 closes the
socket; an exception of another type leaves the function before line 170. -/
def finish (env : Env σ Cmd Store) : LoopExit × Conn σ Cmd Store → Status × Conn σ Cmd Store
  | (.blockedInRead, c) => (.blockedInRead, c)
  | (.exited _, c) => (.returned, closeConnection env c)
  | (.thrown (.runtime _), c) => (.returned, closeConnection env c)
  | (.thrown .other, c) => (.propagated, c)
  | (.undefinedBehaviour, c) => (.undefinedBehaviour, c)
  | (.outOfFuel, c) => (.outOfFuel, c)

/-- `ProcessConnection` continued from a given state of its locals. -/
def resume (env : Env σ Cmd Store) (c : Conn σ Cmd Store) (script : List ReadStep) :
    Status × Conn σ Cmd Store :=
  finish env (readLoop env script c)

/-- The state at line 102. `arg_remains` is uninitialised in the source; it is
not read before `Build` assigns it. -/
def initial (env : Env σ Cmd Store) (storage : Store) : Conn σ Cmd Store :=
  { arg_remains := 0, parser := env.lexer.start, argument_for_command := [],
    command_to_execute := none, storage := storage, trace := [] }

/-- `ProcessConnection` (lines 95-175) on a script of `read` results. -/
def ProcessConnection (env : Env σ Cmd Store) (storage : Store) (script : List ReadStep) :
    Status × Conn σ Cmd Store :=
  resume env (initial env storage) script

/-! ## Lexers that work byte by byte -/

/-- A lexer driven one byte at a time: `step` takes the state and the next
byte and says whether that byte completed a header. `runLexer` consumes bytes
until a header is complete or the input ends, and counts them; bytes after
the end of the header are not looked at. -/
def runLexer (step : σ → Char → Except Fault (σ × Bool)) :
    σ → Bytes → Except Fault (σ × Nat × Bool)
  | s, [] => .ok (s, 0, false)
  | s, ch :: rest =>
    match step s ch with
    | .error f => .error f
    | .ok (s1, true) => .ok (s1, 1, true)
    | .ok (s1, false) =>
      match runLexer step s1 rest with
      | .error f => .error f
      | .ok (s2, n, found) => .ok (s2, n + 1, found)

/-- A lexer that takes its input one byte at a time: `Parse` behaves as a
byte-at-a-time automaton, so that it consumes at least one byte of every
non-empty buffer and its answer does not depend on how the buffer was cut out
of the stream. The lexer contract of the specification is wider: it also
allows the answer "zero bytes consumed" on a buffer that holds no complete
header. -/
def Incremental (lexer : Parser σ Cmd) : Prop :=
  ∃ step : σ → Char → Except Fault (σ × Bool), ∀ s input, lexer.Parse s input = runLexer step s input

/-! ## A concrete text protocol, for the scenarios of the specification -/

/-- Split a header line at blanks. -/
def splitWords : Bytes → List Bytes
  | [] => [[]]
  | ch :: rest =>
    if ch = ' ' then [] :: splitWords rest
    else
      match splitWords rest with
      | [] => [[ch]]
      | w :: ws => (ch :: w) :: ws

/-- Value of a string of decimal digits. -/
def natOfDigits (ds : Bytes) : Nat :=
  ds.foldl (fun n ch => 10 * n + (ch.toNat - 48)) 0

/-- Modelled from the spec: the argument length declared by a header: the
last field of a `set`, `add`, `append` line, and 0 for every other command. -/
def declaredLength (header : Bytes) : Nat :=
  match splitWords header with
  | name :: _ :: _ :: _ :: len :: [] =>
    if name = "set".toList ∨ name = "add".toList ∨ name = "append".toList then natOfDigits len else 0
  | _ => 0

/-- One byte of a header: the line feed completes it, the carriage return is
dropped, every other byte is kept. -/
def headerStep (s : Bytes) (ch : Char) : Except Fault (Bytes × Bool) :=
  if ch = '\n' then .ok (s, true)
  else if ch = '\r' then .ok (s, false)
  else .ok (s ++ [ch], false)

/-- Modelled from the spec: a lexer for newline-terminated headers that
consumes whatever part of a header it is given. Its state is the header text
read so far, and the command it builds is that text. -/
def textLexer : Parser Bytes Bytes where
  start := []
  Parse := runLexer headerStep
  Build := fun s => .ok (s, s, declaredLength s)
  Reset := fun _ => []

/-- Modelled from the spec: a lexer that consumes a header only once it has
all of it before it: it reports zero bytes consumed ("need more data") while
the buffer holds no line feed. -/
def lineLexer : Parser Bytes Bytes where
  start := []
  Parse := fun s input =>
    if '\n' ∈ input then runLexer headerStep s input else .ok (s, 0, false)
  Build := fun s => .ok (s, s, declaredLength s)
  Reset := fun _ => []

/-- A key-value store. -/
abbrev Table := List (Bytes × Bytes)

/-- Modelled from the spec: execution of a command against the storage.
`set` stores the argument it is given, `get` answers with the stored value,
`delete` of an absent key is a recoverable error (`std::runtime_error`),
`incr` of a value that is not a number raises the `std::invalid_argument` of
the number conversion (not a `std::runtime_error`), and an unknown command is
answered with `ERROR`. -/
def tableExecute (cmd : Bytes) (store : Table) (argument : Bytes) : Table × Except Fault Bytes :=
  match splitWords cmd with
  | name :: key :: _ =>
    if name = "set".toList then ((key, argument) :: store, .ok "STORED".toList)
    else if name = "get".toList then
      match store.lookup key with
      | some v => (store, .ok ("VALUE ".toList ++ v))
      | none => (store, .ok "END".toList)
    else if name = "delete".toList then
      match store.lookup key with
      | some _ => (store.filter (fun kv => kv.1 ≠ key), .ok "DELETED".toList)
      | none => (store, .error (.runtime " no such key".toList))
    else if name = "incr".toList then
      match store.lookup key with
      | some v =>
        if v.all Char.isDigit then
          ((key, Nat.toDigits 10 (natOfDigits v + 1)) :: store, .ok (Nat.toDigits 10 (natOfDigits v + 1)))
        else (store, .error .other)
      | none => (store, .ok "NOT_FOUND".toList)
    else (store, .ok "ERROR".toList)
  | _ => (store, .ok "ERROR".toList)

/-- The text protocol over a socket on which every `send` succeeds. -/
def textEnv : Env Bytes Bytes Table where
  lexer := textLexer
  Execute := tableExecute
  send := fun _ _ => true

/-- The same with the lexer that waits for a whole line. -/
def lineEnv : Env Bytes Bytes Table where
  lexer := lineLexer
  Execute := tableExecute
  send := fun _ _ => true

/-- A read that delivered the given text while the server was running. -/
def got (text : String) : ReadStep := { result := .data text.toList, running := true }

/-- A read that delivered the given text after `Stop()` cleared `running`. -/
def gotStopped (text : String) : ReadStep := { result := .data text.toList, running := false }

/-- A read that found the peer closed. -/
def peerClosed : ReadStep := { result := .data [], running := true }

/-- What decreases in every iteration of the inner loop: twice the number
of unread bytes, plus one while a command is pending. -/
def loopMeasure (c : Conn σ Cmd Store) (client_buffer : Bytes) : Nat :=
  2 * client_buffer.length + (if c.command_to_execute.isSome then 1 else 0)

/-- The state a `Ran` carries. -/
def Ran.conn {α : Type} : Ran α → α
  | .done c => c
  | .raised _ c => c

/-- The bytes a `read` stored in `client_buffer`. -/
def ReadResult.bytes : ReadResult → Bytes
  | .data b => b
  | .failed => []

/-- All the bytes a script of reads delivers, in order. -/
def payload (script : List ReadStep) : Bytes :=
  (script.map (fun s => s.result.bytes)).flatten

/-- A read that returned a positive number of bytes, at most the capacity of
`client_buffer`. -/
def Delivers (s : ReadStep) : Prop :=
  match s.result with
  | .data b => 0 < b.length ∧ b.length ≤ BUFFER_SIZE
  | .failed => False

instance (s : ReadStep) : Decidable (Delivers s) := by
  unfold Delivers
  split <;> infer_instance

/-- How many times the socket was closed. -/
def closeCount (trace : List (Event Cmd)) : Nat :=
  (trace.filter (fun e => match e with
    | .close => true
    | _ => false)).length

/-! ## Pipelined commands, as the specification describes them -/

/-- Modelled from the spec: the number of bytes of the argument phase of a
command that declares the argument length `L`: the argument and its 2-byte
terminator, and nothing when no argument is declared. -/
def argumentPhaseBytes (L : Nat) : Nat :=
  if L > 0 then L + 2 else 0

/-- What stands at the front of the unread bytes of a read. -/
inductive Front (σ Cmd : Type) where
  /-- a complete command: its header, and all the bytes of its argument
  phase; `reset` is the lexer state for the next command and `rest` the bytes
  behind the command -/
  | command (cmd : Cmd) (argument : Bytes) (reset : σ) (rest : Bytes)
  /-- a complete header that declares the argument length `L`, with the read
  ending before the end of the argument phase -/
  | cut (L : Nat)
  /-- no complete header -/
  | nothing
deriving DecidableEq, Repr

/-- The command at the front of the unread bytes, following the wire
protocol of the specification: the lexer is given the unread bytes, again and
again while it consumes some of them without completing a header; a complete
header is followed by the bytes of its argument phase. The first argument
bounds the number of calls of the lexer. -/
def frontCommand (lexer : Parser σ Cmd) : Nat → σ → Bytes → Front σ Cmd
  | 0, _, _ => .nothing
  | fuel + 1, s, buf =>
    if buf.length = 0 then .nothing
    else
      match lexer.Parse s buf with
      | .error _ => .nothing
      | .ok (p, n, found) =>
        if n = 0 ∨ buf.length < n then .nothing
        else if found then
          match lexer.Build p with
          | .error _ => .nothing
          | .ok (p1, cmd, L) =>
            if argumentPhaseBytes L ≤ (buf.drop n).length then
              .command cmd ((buf.drop n).take (argumentPhaseBytes L)) (lexer.Reset p1)
                ((buf.drop n).drop (argumentPhaseBytes L))
            else .cut L
        else frontCommand lexer fuel p (buf.drop n)

/-- The complete pipelined commands a read contains, in order, each with the
bytes of its argument phase; and, when the read ends inside the argument
phase of a further command, the argument length that command declares. The
first argument bounds the number of commands. -/
def splitCommands (lexer : Parser σ Cmd) : Nat → σ → Bytes → List (Cmd × Bytes) × Option Nat
  | 0, _, _ => ([], none)
  | fuel + 1, s, buf =>
    match frontCommand lexer buf.length s buf with
    | .command cmd argument reset rest =>
      ((cmd, argument) :: (splitCommands lexer fuel reset rest).1,
        (splitCommands lexer fuel reset rest).2)
    | .cut L => ([], some L)
    | .nothing => ([], none)

/-- What the client and the storage should see when the commands are served
one after the other: each command is executed on the storage left by the one
before, and its result followed by the terminator is sent before the next
command is executed. The answer is `none` when an execution raises or a
`send` fails. -/
def serve (env : Env σ Cmd Store) :
    List (Cmd × Bytes) → Store → List (Event Cmd) → Option (Store × List (Event Cmd))
  | [], st, trace => some (st, trace)
  | (cmd, argument) :: rest, st, trace =>
    match env.Execute cmd st argument with
    | (st1, .ok result) =>
      if env.send (trace ++ [Event.execute cmd argument]) (result ++ CRLF) = true then
        serve env rest st1
          (trace ++ [Event.execute cmd argument] ++ [Event.send (result ++ CRLF)])
      else none
    | (_, .error _) => none

/-- How many times `send` was called. -/
def sendCount (trace : List (Event Cmd)) : Nat :=
  (trace.filter (fun e => match e with
    | .send _ => true
    | _ => false)).length

/-! ## The stream seen one byte at a time -/

/-- The exit and the state of a pass, without the bytes left in the buffer. -/
def outcome (r : Exit × Conn σ Cmd Store × Bytes) : Exit × Conn σ Cmd Store :=
  (r.1, r.2.1)

/-- Go on with `next` when a pass has consumed its read, stop otherwise. -/
def thenFeed (next : Conn σ Cmd Store → Exit × Conn σ Cmd Store) :
    Exit × Conn σ Cmd Store → Exit × Conn σ Cmd Store
  | (.drained, c1) => next c1
  | (e, c1) => (e, c1)

/-- The stream delivered in reads of one byte each: the reference against
which every other way of cutting the stream into reads is compared. -/
def feedBytes (env : Env σ Cmd Store) : Conn σ Cmd Store → Bytes → Exit × Conn σ Cmd Store
  | c, [] => (.drained, c)
  | c, x :: xs => thenFeed (fun c1 => feedBytes env c1 xs) (outcome (processRead env c [x]))

/-- Two results that cannot be told apart from outside: the same exit, the
same effects, the same storage, and the same state whenever the connection
goes on. -/
def Agree (r1 r2 : Exit × Conn σ Cmd Store) : Prop :=
  r1.1 = r2.1 ∧ r1.2.trace = r2.2.trace ∧ r1.2.storage = r2.2.storage ∧
    (r1.1 = Exit.drained → r1.2 = r2.2)

/-- A read that returned the given bytes while `running` was true. -/
def delivered (b : Bytes) : ReadStep := { result := .data b, running := true }

/-- The commands executed, with their arguments, in order. -/
def executed : List (Event Cmd) → List (Cmd × Bytes)
  | [] => []
  | .execute cmd argument :: rest => (cmd, argument) :: executed rest
  | _ :: rest => executed rest

/-- The responses sent, in order. -/
def responses : List (Event Cmd) → List Bytes
  | [] => []
  | .send data :: rest => data :: responses rest
  | _ :: rest => responses rest

/-- What can be told from outside once `ProcessConnection` is over: how it
ended and the trace of its effects. -/
def verdict (r : Status × Conn σ Cmd Store) : Status × List (Event Cmd) :=
  (r.1, r.2.trace)

/-- The verdict of a connection whose stream, taken one byte at a time, gave
the result `r`, and whose script goes on with `ending`. -/
def verdictOfStream (env : Env σ Cmd Store) (ending : List ReadStep) :
    Exit × Conn σ Cmd Store → Status × List (Event Cmd)
  | (.drained, c1) => verdict (finish env (readLoop env ending c1))
  | (.needMore, c1) => verdict (finish env (readLoop env ending c1))
  | (.thrown (.runtime _), c1) => (Status.returned, c1.trace ++ [Event.close])
  | (.thrown .other, c1) => (Status.propagated, c1.trace)
  | (.undefinedBehaviour, c1) => (Status.undefinedBehaviour, c1.trace)
  | (.outOfFuel, c1) => (Status.outOfFuel, c1.trace)

/-- The accumulator is empty while no command is pending. -/
def IdleEmpty (c : Conn σ Cmd Store) : Prop :=
  c.command_to_execute = none → c.argument_for_command = []

/-! ## The inner loop ends -/

section Loop

variable (env : Env σ Cmd Store)

theorem parseHeader_next_pending {c c1 : Conn σ Cmd Store} {buf b1 : Bytes} {cmd : Cmd}
    (hc : c.command_to_execute = some cmd) (h : parseHeader env c buf = .next c1 b1) :
    c1 = c ∧ b1 = buf := by
  unfold parseHeader at h
  rw [hc] at h
  simp only [Step.next.injEq] at h
  exact ⟨h.1.symm, h.2.symm⟩

theorem shiftParsed_next {c c1 : Conn σ Cmd Store} {parsed : Nat} {buf b1 : Bytes}
    (h : shiftParsed c parsed buf = .next c1 b1) :
    c1 = c ∧ 0 < parsed ∧ parsed ≤ buf.length ∧ b1 = buf.drop parsed := by
  unfold shiftParsed at h
  split at h
  · cases h
  · split at h
    · cases h
    · simp only [Step.next.injEq] at h
      exact ⟨h.1.symm, by omega, by omega, h.2.symm⟩

theorem shiftParsed_stop {c c1 : Conn σ Cmd Store} {parsed : Nat} {buf b1 : Bytes} {e : Exit}
    (h : shiftParsed c parsed buf = .stop e c1 b1) :
    (e = Exit.needMore ∧ parsed = 0) ∨ (e = Exit.undefinedBehaviour ∧ buf.length < parsed) := by
  unfold shiftParsed at h
  split at h
  · simp only [Step.stop.injEq] at h
    exact Or.inl ⟨h.1.symm, by assumption⟩
  · split at h
    · simp only [Step.stop.injEq] at h
      exact Or.inr ⟨h.1.symm, by assumption⟩
    · cases h

theorem parseHeader_next_idle {c c1 : Conn σ Cmd Store} {buf b1 : Bytes}
    (hc : c.command_to_execute = none) (h : parseHeader env c buf = .next c1 b1) :
    ∃ parsed, 0 < parsed ∧ parsed ≤ buf.length ∧ b1 = buf.drop parsed := by
  unfold parseHeader at h
  rw [hc] at h
  simp only at h
  split at h
  · cases h
  · rename_i p parsed found _
    split at h
    · cases h
    · obtain ⟨_, h1, h2, h3⟩ := shiftParsed_next h
      exact ⟨parsed, h1, h2, h3⟩

/-- How the first `if` of the body can end the pass: by an exception, by the
`break` after a `Parse` that consumed nothing, or with a `parsed` larger than
what the lexer was given. -/
theorem parseHeader_stop {c c1 : Conn σ Cmd Store} {buf b1 : Bytes} {e : Exit}
    (h : parseHeader env c buf = .stop e c1 b1) :
    (∃ f, e = Exit.thrown f) ∨
      (e = Exit.needMore ∧
        ∃ p found, env.lexer.Parse c.parser buf = .ok (p, 0, found)) ∨
      (e = Exit.undefinedBehaviour ∧
        ∃ p parsed found, env.lexer.Parse c.parser buf = .ok (p, parsed, found) ∧
          buf.length < parsed) := by
  unfold parseHeader at h
  split at h
  · cases h
  · split at h
    · simp only [Step.stop.injEq] at h
      exact Or.inl ⟨_, h.1.symm⟩
    · rename_i p parsed found hp
      split at h
      · simp only [Step.stop.injEq] at h
        exact Or.inl ⟨_, h.1.symm⟩
      · rcases shiftParsed_stop h with ⟨h1, h2⟩ | ⟨h1, h2⟩
        · subst h2
          exact Or.inr (Or.inl ⟨h1, p, found, hp⟩)
        · exact Or.inr (Or.inr ⟨h1, p, parsed, found, hp, h2⟩)

theorem fillArgument_command (c : Conn σ Cmd Store) (buf : Bytes) :
    (fillArgument c buf).1.command_to_execute = c.command_to_execute := by
  unfold fillArgument
  split <;> rfl

theorem fillArgument_length_le (c : Conn σ Cmd Store) (buf : Bytes) :
    (fillArgument c buf).2.length ≤ buf.length := by
  unfold fillArgument
  split
  · simp only [List.length_drop]; omega
  · exact Nat.le_refl _

theorem fillArgument_length_lt {c : Conn σ Cmd Store} {buf : Bytes} {cmd : Cmd}
    (hc : c.command_to_execute = some cmd) (hr : 0 < c.arg_remains) (hb : 0 < buf.length) :
    (fillArgument c buf).2.length < buf.length := by
  unfold fillArgument
  rw [if_pos ⟨by simp [hc], hr⟩]
  simp only [List.length_drop]
  omega

theorem fillArgument_idle {c : Conn σ Cmd Store} (buf : Bytes)
    (hr : c.arg_remains = 0) : fillArgument c buf = (c, buf) := by
  unfold fillArgument
  rw [if_neg (by omega)]

theorem runCommand_done_command {c c3 : Conn σ Cmd Store}
    (h : runCommand env c = .done c3) :
    (c3 = c ∧ (c.command_to_execute = none ∨ 0 < c.arg_remains)) ∨
      (c.arg_remains = 0 ∧ c.command_to_execute.isSome ∧ c3.command_to_execute = none) := by
  unfold runCommand at h
  split at h
  · rename_i hn
    simp only [Ran.done.injEq] at h
    exact Or.inl ⟨h.symm, Or.inl hn⟩
  · rename_i cmd hs
    split at h
    · rename_i hz
      right
      refine ⟨hz, by simp [hs], ?_⟩
      simp only at h
      split at h
      · cases h
      · cases h
      · split at h
        · simp only [Ran.done.injEq] at h
          rw [← h]
        · cases h
    · rename_i hz
      simp only [Ran.done.injEq] at h
      exact Or.inl ⟨h.symm, Or.inr (by omega)⟩

/-- Every iteration that goes round the loop again makes `loopMeasure`
smaller. -/
theorem loopMeasure_decreases {c c1 c3 : Conn σ Cmd Store} {buf b1 : Bytes}
    (hb : buf.length ≠ 0) (h1 : parseHeader env c buf = .next c1 b1)
    (h3 : runCommand env (fillArgument c1 b1).1 = .done c3) :
    loopMeasure c3 (fillArgument c1 b1).2 < loopMeasure c buf := by
  have hle := fillArgument_length_le c1 b1
  have hcmd := fillArgument_command c1 b1
  have hflag : ∀ x : Conn σ Cmd Store, (if x.command_to_execute.isSome then 1 else 0) ≤ 1 := by
    intro x; split <;> omega
  have hf3 := hflag c3
  unfold loopMeasure
  cases hc : c.command_to_execute with
  | none =>
    obtain ⟨parsed, hp, hpl, hb1⟩ := parseHeader_next_idle env hc h1
    have : b1.length < buf.length := by rw [hb1, List.length_drop]; omega
    simp only [Option.isSome_none, Bool.false_eq_true, if_false]
    omega
  | some cmd =>
    obtain ⟨rfl, rfl⟩ := parseHeader_next_pending env hc h1
    simp only [Option.isSome_some, if_true]
    rcases Nat.eq_zero_or_pos c1.arg_remains with hz | hpos
    · rw [fillArgument_idle b1 hz] at h3 ⊢
      rcases runCommand_done_command env h3 with ⟨_, h | h⟩ | ⟨_, _, h⟩
      · rw [hc] at h; cases h
      · simp only at h; omega
      · simp only [h, Option.isSome_none, Bool.false_eq_true, if_false]
        omega
    · have hlt : (fillArgument c1 b1).2.length < b1.length :=
        fillArgument_length_lt hc hpos (by omega)
      omega

/-- With more iterations allowed than `loopMeasure`, the result of the inner
loop does not depend on the allowance. -/
theorem processBuffer_fuel (n m : Nat) (c : Conn σ Cmd Store) (buf : Bytes)
    (hn : loopMeasure c buf < n) (hm : loopMeasure c buf < m) :
    processBuffer env n c buf = processBuffer env m c buf := by
  induction n generalizing m c buf with
  | zero => omega
  | succ n ih =>
    cases m with
    | zero => omega
    | succ m =>
      unfold processBuffer
      split
      · rfl
      · rename_i hb
        cases h1 : parseHeader env c buf with
        | stop e c1 b1 => rfl
        | next c1 b1 =>
          simp only
          cases h3 : runCommand env (fillArgument c1 b1).1 with
          | raised f c3 => rfl
          | done c3 =>
            simp only
            have := loopMeasure_decreases env hb h1 h3
            exact ih m c3 _ (by omega) (by omega)

/-- With more iterations allowed than `loopMeasure`, the inner loop does not
run out of them. -/
theorem processBuffer_ends (n : Nat) (c : Conn σ Cmd Store) (buf : Bytes)
    (hn : loopMeasure c buf < n) : (processBuffer env n c buf).1 ≠ Exit.outOfFuel := by
  induction n generalizing c buf with
  | zero => omega
  | succ n ih =>
    unfold processBuffer
    split
    · simp
    · rename_i hb
      cases h1 : parseHeader env c buf with
      | stop e c1 b1 =>
        simp only
        intro he
        subst he
        rcases parseHeader_stop env h1 with ⟨f, hf⟩ | ⟨hf, _⟩ | ⟨hf, _⟩ <;> cases hf
      | next c1 b1 =>
        simp only
        cases h3 : runCommand env (fillArgument c1 b1).1 with
        | raised f c3 => simp
        | done c3 =>
          simp only
          have := loopMeasure_decreases env hb h1 h3
          exact ih c3 _ (by omega)

theorem loopMeasure_lt_passFuel (c : Conn σ Cmd Store) (buf : Bytes) :
    loopMeasure c buf < passFuel buf := by
  unfold loopMeasure passFuel
  split <;> omega

/-- The loop body, without any count of iterations: one pass over a read is
its first iteration followed by a pass over what that iteration left. -/
theorem processRead_unfold (c : Conn σ Cmd Store) (buf : Bytes) :
    processRead env c buf =
      if buf.length = 0 then (Exit.drained, c, buf)
      else
        match parseHeader env c buf with
        | .stop e c1 b1 => (e, c1, b1)
        | .next c1 b1 =>
          match runCommand env (fillArgument c1 b1).1 with
          | .raised f c3 => (Exit.thrown f, c3, (fillArgument c1 b1).2)
          | .done c3 => processRead env c3 (fillArgument c1 b1).2 := by
  unfold processRead
  rw [show passFuel buf = (2 * buf.length + 1) + 1 from rfl, processBuffer]
  split
  · rfl
  · rename_i hb
    cases h1 : parseHeader env c buf with
    | stop e c1 b1 => rfl
    | next c1 b1 =>
      simp only
      cases h3 : runCommand env (fillArgument c1 b1).1 with
      | raised f c3 => rfl
      | done c3 =>
        simp only
        have := loopMeasure_decreases env hb h1 h3
        have h2 := loopMeasure_lt_passFuel c buf
        unfold passFuel at h2
        exact processBuffer_fuel env _ _ c3 _ (by omega) (loopMeasure_lt_passFuel _ _)

/-- A lexer that never reports more bytes than it was given keeps the loop
away from the underflowing `memmove`. -/
theorem processBuffer_defined
    (hlexer : ∀ s input p parsed found,
      env.lexer.Parse s input = .ok (p, parsed, found) → parsed ≤ input.length)
    (n : Nat) (c : Conn σ Cmd Store) (buf : Bytes) :
    (processBuffer env n c buf).1 ≠ Exit.undefinedBehaviour := by
  induction n generalizing c buf with
  | zero => simp [processBuffer]
  | succ n ih =>
    unfold processBuffer
    split
    · simp
    · cases h1 : parseHeader env c buf with
      | stop e c1 b1 =>
        simp only
        intro he
        subst he
        rcases parseHeader_stop env h1 with ⟨f, hf⟩ | ⟨hf, _⟩ | ⟨_, p, parsed, found, hp, hlt⟩
        · cases hf
        · cases hf
        · have := hlexer _ _ _ _ _ hp
          omega
      | next c1 b1 =>
        simp only
        cases h3 : runCommand env (fillArgument c1 b1).1 with
        | raised f c3 => simp
        | done c3 => exact ih c3 _

/-- A lexer that consumes at least one byte of every non-empty buffer keeps
the loop away from the `break` of line 122. -/
theorem processBuffer_consumes
    (hlexer : ∀ s input p parsed found, input ≠ [] →
      env.lexer.Parse s input = .ok (p, parsed, found) → 0 < parsed)
    (n : Nat) (c : Conn σ Cmd Store) (buf : Bytes) :
    (processBuffer env n c buf).1 ≠ Exit.needMore := by
  induction n generalizing c buf with
  | zero => simp [processBuffer]
  | succ n ih =>
    unfold processBuffer
    split
    · simp
    · rename_i hb
      cases h1 : parseHeader env c buf with
      | stop e c1 b1 =>
        simp only
        intro he
        subst he
        rcases parseHeader_stop env h1 with ⟨f, hf⟩ | ⟨_, p, found, hp⟩ | ⟨hf, _⟩
        · cases hf
        · have := hlexer _ _ _ _ _ (fun h => hb (by rw [h]; rfl)) hp
          omega
        · cases hf
      | next c1 b1 =>
        simp only
        cases h3 : runCommand env (fillArgument c1 b1).1 with
        | raised f c3 => simp
        | done c3 => exact ih c3 _

/-- An iteration that goes round again has consumed bytes, or has executed
and cleared the command that was pending when it began. -/
theorem iteration_progress {c c1 c3 : Conn σ Cmd Store} {buf b1 : Bytes}
    (hb : buf.length ≠ 0) (h1 : parseHeader env c buf = .next c1 b1)
    (h3 : runCommand env (fillArgument c1 b1).1 = .done c3) :
    (fillArgument c1 b1).2.length < buf.length ∨
      (c.command_to_execute.isSome = true ∧ c3.command_to_execute = none) := by
  have hle := fillArgument_length_le c1 b1
  cases hc : c.command_to_execute with
  | none =>
    obtain ⟨parsed, hp, hpl, hb1⟩ := parseHeader_next_idle env hc h1
    have : b1.length < buf.length := by rw [hb1, List.length_drop]; omega
    left; omega
  | some cmd =>
    obtain ⟨rfl, rfl⟩ := parseHeader_next_pending env hc h1
    rcases Nat.eq_zero_or_pos c1.arg_remains with hz | hpos
    · rw [fillArgument_idle b1 hz] at h3
      rcases runCommand_done_command env h3 with ⟨_, h | h⟩ | ⟨_, _, h⟩
      · rw [hc] at h; cases h
      · simp only at h; omega
      · right; exact ⟨rfl, h⟩
    · left; exact fillArgument_length_lt hc hpos (by omega)

end Loop

/-! ## Lexers that work byte by byte -/

theorem runLexer_parsed_le (step : σ → Char → Except Fault (σ × Bool)) (input : Bytes) :
    ∀ (s p : σ) (parsed : Nat) (found : Bool),
      runLexer step s input = .ok (p, parsed, found) → parsed ≤ input.length := by
  induction input with
  | nil =>
    intro s p parsed found h
    simp only [runLexer, Except.ok.injEq, Prod.mk.injEq] at h
    omega
  | cons ch rest ih =>
    intro s p parsed found h
    unfold runLexer at h
    split at h
    · cases h
    · simp only [Except.ok.injEq, Prod.mk.injEq] at h
      simp only [List.length_cons]
      omega
    · split at h
      · cases h
      · rename_i s2 n fd hr
        simp only [Except.ok.injEq, Prod.mk.injEq] at h
        have := ih _ _ _ _ hr
        simp only [List.length_cons]
        omega

theorem runLexer_single (step : σ → Char → Except Fault (σ × Bool)) (s : σ) (x : Char) :
    runLexer step s [x] =
      match step s x with
      | .error f => .error f
      | .ok (s1, found) => .ok (s1, 1, found) := by
  unfold runLexer
  split
  · rename_i h; simp only [h]
  · rename_i h; simp only [h]
  · rename_i h; simp only [h, runLexer]

theorem runLexer_pos (step : σ → Char → Except Fault (σ × Bool)) {s p : σ} {input : Bytes}
    {parsed : Nat} {found : Bool} (hne : input ≠ [])
    (h : runLexer step s input = .ok (p, parsed, found)) : 0 < parsed := by
  cases input with
  | nil => exact absurd rfl hne
  | cons x xs =>
    unfold runLexer at h
    split at h
    · cases h
    · simp only [Except.ok.injEq, Prod.mk.injEq] at h
      omega
    · split at h
      · cases h
      · simp only [Except.ok.injEq, Prod.mk.injEq] at h
        omega

/-! ## C10: the inner loop terminates -/

/-- C10: the loop `while (readed_bytes > 0)` of `ProcessConnection` ends.
For every state of the connection at the start of a pass, every read and
every lexer that reports `parsed <= readed_bytes`, the pass is over within
`2 * readed_bytes + 2` iterations whatever larger number is allowed, never
reaches the underflowing `memmove`, and every iteration that does not leave
the loop either strictly reduces the number of unread bytes or executes and
clears the command that was pending. `Execute` and `send` are total functions
of the model, so they return. -/
theorem inner_loop_terminates (env : Env σ Cmd Store) (c : Conn σ Cmd Store)
    (client_buffer : Bytes)
    (hlexer : ∀ s input p parsed found,
      env.lexer.Parse s input = .ok (p, parsed, found) → parsed ≤ input.length) :
    (∀ fuel, passFuel client_buffer ≤ fuel →
        processBuffer env fuel c client_buffer = processRead env c client_buffer) ∧
      (processRead env c client_buffer).1 ≠ Exit.outOfFuel ∧
      (processRead env c client_buffer).1 ≠ Exit.undefinedBehaviour ∧
      (∀ (c0 c1 c3 : Conn σ Cmd Store) (buf b1 : Bytes), buf.length ≠ 0 →
        parseHeader env c0 buf = .next c1 b1 →
        runCommand env (fillArgument c1 b1).1 = .done c3 →
        (fillArgument c1 b1).2.length < buf.length ∨
          (c0.command_to_execute.isSome = true ∧ c3.command_to_execute = none)) := by
  refine ⟨?_, ?_, ?_, ?_⟩
  · intro fuel hfuel
    have h := loopMeasure_lt_passFuel c client_buffer
    exact processBuffer_fuel env _ _ c client_buffer (by omega) h
  · exact processBuffer_ends env _ c client_buffer (loopMeasure_lt_passFuel c client_buffer)
  · exact processBuffer_defined env hlexer _ c client_buffer
  · intro c0 c1 c3 buf b1 hb h1 h3
    exact iteration_progress env hb h1 h3

/-- C10 at the text protocol: a read that carries two commands. -/
theorem inner_loop_terminates_witness :
    (∀ s input p parsed found,
      textEnv.lexer.Parse s input = .ok (p, parsed, found) → parsed ≤ input.length) ∧
    (∀ fuel, passFuel "get foo\r\nget bar\r\n".toList ≤ fuel →
        processBuffer textEnv fuel (initial textEnv []) "get foo\r\nget bar\r\n".toList =
          processRead textEnv (initial textEnv []) "get foo\r\nget bar\r\n".toList) ∧
      (processRead textEnv (initial textEnv []) "get foo\r\nget bar\r\n".toList).1 ≠ Exit.outOfFuel :=
  have h := inner_loop_terminates textEnv (initial textEnv []) "get foo\r\nget bar\r\n".toList
    (fun s input p parsed found hp => runLexer_parsed_le headerStep input s p parsed found hp)
  ⟨fun s input p parsed found hp => runLexer_parsed_le headerStep input s p parsed found hp,
    h.1, h.2.1⟩

/-! ## The three steps of the loop body -/

section Body

variable (env : Env σ Cmd Store)

theorem parseHeader_pending {c : Conn σ Cmd Store} {cmd : Cmd} (buf : Bytes)
    (hc : c.command_to_execute = some cmd) : parseHeader env c buf = .next c buf := by
  unfold parseHeader
  rw [hc]

theorem processRead_nil (c : Conn σ Cmd Store) : processRead env c [] = (Exit.drained, c, []) := by
  rw [processRead_unfold]
  rfl

theorem runCommand_waiting {c : Conn σ Cmd Store} (hr : 0 < c.arg_remains) :
    runCommand env c = .done c := by
  unfold runCommand
  split
  · rfl
  · rw [if_neg (by omega)]

theorem runCommand_idle {c : Conn σ Cmd Store} (hc : c.command_to_execute = none) :
    runCommand env c = .done c := by
  unfold runCommand
  rw [hc]

/-- The third `if` of the body only adds to the trace, and when a command is
pending with nothing left to fill, the first thing it adds is the call of
`Execute` with the accumulated argument. -/
theorem runCommand_calls_execute {c : Conn σ Cmd Store} {cmd : Cmd}
    (hc : c.command_to_execute = some cmd) (hr : c.arg_remains = 0) :
    ∃ more, (runCommand env c).conn.trace =
      c.trace ++ Event.execute cmd c.argument_for_command :: more := by
  unfold runCommand
  rw [hc]
  simp only [hr, if_true]
  split
  · exact ⟨[], by simp [Ran.conn]⟩
  · exact ⟨[], by simp [Ran.conn]⟩
  · rename_i st result _
    split
    · exact ⟨[Event.send (result ++ CRLF)], by simp [Ran.conn]⟩
    · exact ⟨[Event.send (result ++ CRLF)], by simp [Ran.conn]⟩

/-- After a command has run and its response has been sent, the per-command
state is back to idle. -/
theorem runCommand_done_idle {c c3 : Conn σ Cmd Store} {cmd : Cmd}
    (hc : c.command_to_execute = some cmd) (hr : c.arg_remains = 0)
    (h : runCommand env c = .done c3) :
    c3.command_to_execute = none ∧ c3.argument_for_command = [] ∧ c3.arg_remains = 0 := by
  unfold runCommand at h
  rw [hc] at h
  simp only [hr, if_true] at h
  split at h
  · cases h
  · cases h
  · split at h
    · simp only [Ran.done.injEq] at h
      subst h
      exact ⟨rfl, rfl, rfl⟩
    · cases h

/-- The value of the third `if` of the body when `Execute` and `send` both
succeed. -/
theorem runCommand_success {c : Conn σ Cmd Store} {cmd : Cmd} {st : Store} {result : Bytes}
    (hc : c.command_to_execute = some cmd) (hr : c.arg_remains = 0)
    (hx : env.Execute cmd c.storage c.argument_for_command = (st, .ok result))
    (hs : env.send (c.trace ++ [Event.execute cmd c.argument_for_command]) (result ++ CRLF) = true) :
    runCommand env c =
      .done { c with
        storage := st
        trace := c.trace ++ [Event.execute cmd c.argument_for_command] ++ [Event.send (result ++ CRLF)]
        command_to_execute := none
        argument_for_command := []
        parser := env.lexer.Reset c.parser } := by
  unfold runCommand
  rw [hc]
  simp only [hr, if_true, hx, hs]

/-- Argument fill with a read that does not bring all the missing bytes: the
whole read goes to the accumulator and nothing else happens. -/
theorem processRead_fill_short {c : Conn σ Cmd Store} {cmd : Cmd} (buf : Bytes)
    (hc : c.command_to_execute = some cmd) (hshort : buf.length < c.arg_remains) :
    processRead env c buf =
      (Exit.drained,
        { c with argument_for_command := c.argument_for_command ++ buf,
                 arg_remains := c.arg_remains - buf.length }, []) := by
  rcases Nat.eq_zero_or_pos buf.length with hz | hpos
  · have : buf = [] := List.length_eq_zero.mp hz
    subst this
    rw [processRead_nil]
    simp
  · rw [processRead_unfold, if_neg (by omega), parseHeader_pending env buf hc]
    have hfill : fillArgument c buf =
        ({ c with argument_for_command := c.argument_for_command ++ buf,
                  arg_remains := c.arg_remains - buf.length }, []) := by
      unfold fillArgument
      rw [if_pos ⟨by simp [hc], by omega⟩]
      have hmin : min c.arg_remains buf.length = buf.length := by omega
      simp only [hmin, List.take_length, List.drop_length]
    simp only [hfill]
    rw [runCommand_waiting env (by simp only; omega)]
    simp only
    rw [processRead_nil]

/-- Argument fill with a read that brings all the missing bytes: exactly
`arg_remains` bytes go to the accumulator, the command runs at once, and the
pass goes on with the bytes behind them. -/
theorem processRead_fill_complete {c : Conn σ Cmd Store} {cmd : Cmd} (buf : Bytes)
    (hc : c.command_to_execute = some cmd) (hpos : 0 < c.arg_remains)
    (hfull : c.arg_remains ≤ buf.length) :
    processRead env c buf =
      match runCommand env
        { c with argument_for_command := c.argument_for_command ++ buf.take c.arg_remains,
                 arg_remains := 0 } with
      | .raised f c3 => (Exit.thrown f, c3, buf.drop c.arg_remains)
      | .done c3 => processRead env c3 (buf.drop c.arg_remains) := by
  rw [processRead_unfold, if_neg (by omega), parseHeader_pending env buf hc]
  have hfill : fillArgument c buf =
      ({ c with argument_for_command := c.argument_for_command ++ buf.take c.arg_remains,
                arg_remains := 0 }, buf.drop c.arg_remains) := by
    unfold fillArgument
    rw [if_pos ⟨by simp [hc], hpos⟩]
    have hmin : min c.arg_remains buf.length = c.arg_remains := by omega
    simp only [hmin, Nat.sub_self]
  simp only [hfill]

end Body

/-! ## The trace only grows -/

section Trace

variable (env : Env σ Cmd Store)

theorem buildCommand_trace {c c1 : Conn σ Cmd Store} {p : σ} {found : Bool}
    (h : buildCommand env c p found = .ok c1) :
    c1.trace = c.trace ∧ c1.storage = c.storage ∧
      c1.argument_for_command = c.argument_for_command := by
  unfold buildCommand at h
  split at h
  · split at h
    · cases h
    · simp only [Except.ok.injEq] at h
      subst h
      exact ⟨rfl, rfl, rfl⟩
  · simp only [Except.ok.injEq] at h
    subst h
    exact ⟨rfl, rfl, rfl⟩

theorem parseHeader_trace (c : Conn σ Cmd Store) (buf : Bytes) :
    (∀ c1 b1, parseHeader env c buf = .next c1 b1 → c1.trace = c.trace) ∧
      (∀ e c1 b1, parseHeader env c buf = .stop e c1 b1 → c1.trace = c.trace) := by
  unfold parseHeader
  split
  · exact ⟨fun c1 b1 h => (by cases h; rfl), fun e c1 b1 h => (by cases h)⟩
  · split
    · exact ⟨fun c1 b1 h => (by cases h), fun e c1 b1 h => (by cases h; rfl)⟩
    · rename_i p parsed found _
      split
      · exact ⟨fun c1 b1 h => (by cases h), fun e c1 b1 h => (by cases h; rfl)⟩
      · rename_i c2 hb
        have ht := (buildCommand_trace env hb).1
        unfold shiftParsed
        split
        · exact ⟨fun c1 b1 h => (by cases h), fun e c1 b1 h => (by cases h; exact ht)⟩
        · split
          · exact ⟨fun c1 b1 h => (by cases h), fun e c1 b1 h => (by cases h; exact ht)⟩
          · exact ⟨fun c1 b1 h => (by cases h; exact ht), fun e c1 b1 h => (by cases h)⟩

theorem fillArgument_trace (c : Conn σ Cmd Store) (buf : Bytes) :
    (fillArgument c buf).1.trace = c.trace := by
  unfold fillArgument
  split <;> rfl

theorem runCommand_trace (c : Conn σ Cmd Store) :
    ∃ more, (runCommand env c).conn.trace = c.trace ++ more := by
  cases hc : c.command_to_execute with
  | none => rw [runCommand_idle env hc]; exact ⟨[], by simp [Ran.conn]⟩
  | some cmd =>
    rcases Nat.eq_zero_or_pos c.arg_remains with hz | hpos
    · obtain ⟨more, h⟩ := runCommand_calls_execute env hc hz
      exact ⟨_, h⟩
    · rw [runCommand_waiting env hpos]; exact ⟨[], by simp [Ran.conn]⟩

theorem processBuffer_trace (n : Nat) (c : Conn σ Cmd Store) (buf : Bytes) :
    ∃ more, (processBuffer env n c buf).2.1.trace = c.trace ++ more := by
  induction n generalizing c buf with
  | zero => exact ⟨[], by simp [processBuffer]⟩
  | succ n ih =>
    unfold processBuffer
    split
    · exact ⟨[], by simp⟩
    · cases h1 : parseHeader env c buf with
      | stop e c1 b1 =>
        exact ⟨[], by simp [(parseHeader_trace env c buf).2 e c1 b1 h1]⟩
      | next c1 b1 =>
        simp only
        have h1t := (parseHeader_trace env c buf).1 c1 b1 h1
        have h2t := fillArgument_trace c1 b1
        obtain ⟨m3, h3t⟩ := runCommand_trace env (fillArgument c1 b1).1
        cases h3 : runCommand env (fillArgument c1 b1).1 with
        | raised f c3 =>
          rw [h3] at h3t
          simp only [Ran.conn] at h3t
          exact ⟨m3, by simp only; rw [h3t, h2t, h1t]⟩
        | done c3 =>
          rw [h3] at h3t
          simp only [Ran.conn] at h3t
          obtain ⟨m4, h4t⟩ := ih c3 (fillArgument c1 b1).2
          exact ⟨m3 ++ m4, by simp only; rw [h4t, h3t, h2t, h1t, List.append_assoc]⟩

theorem processRead_trace (c : Conn σ Cmd Store) (buf : Bytes) :
    ∃ more, (processRead env c buf).2.1.trace = c.trace ++ more :=
  processBuffer_trace env _ c buf

theorem afterPass_trace (again : Conn σ Cmd Store → LoopExit × Conn σ Cmd Store)
    (hagain : ∀ c1, ∃ more, (again c1).2.trace = c1.trace ++ more)
    (r : Exit × Conn σ Cmd Store × Bytes) :
    ∃ more, (afterPass again r).2.trace = r.2.1.trace ++ more := by
  obtain ⟨e, c1, b1⟩ := r
  cases e with
  | drained => exact hagain c1
  | needMore => exact hagain c1
  | thrown f => exact ⟨[], by simp [afterPass]⟩
  | undefinedBehaviour => exact ⟨[], by simp [afterPass]⟩
  | outOfFuel => exact ⟨[], by simp [afterPass]⟩

theorem readLoop_trace (script : List ReadStep) (c : Conn σ Cmd Store) :
    ∃ more, (readLoop env script c).2.trace = c.trace ++ more := by
  induction script generalizing c with
  | nil => exact ⟨[], by simp [readLoop]⟩
  | cons step rest ih =>
    unfold readLoop
    split
    · exact ⟨[], by simp⟩
    · rename_i buf _
      split
      · obtain ⟨m1, h1⟩ := processRead_trace env c buf
        obtain ⟨m2, h2⟩ := afterPass_trace (fun c1 => readLoop env rest c1) ih
          (processRead env c buf)
        exact ⟨m1 ++ m2, by rw [h2, h1, List.append_assoc]⟩
      · exact ⟨[], by simp⟩

theorem finish_trace (r : LoopExit × Conn σ Cmd Store) :
    ∃ more, (finish env r).2.trace = r.2.trace ++ more := by
  obtain ⟨e, c⟩ := r
  cases e with
  | blockedInRead => exact ⟨[], by simp [finish]⟩
  | exited n => exact ⟨[Event.close], by simp [finish, closeConnection]⟩
  | thrown f =>
    cases f with
    | runtime w => exact ⟨[Event.close], by simp [finish, closeConnection]⟩
    | other => exact ⟨[], by simp [finish]⟩
  | undefinedBehaviour => exact ⟨[], by simp [finish]⟩
  | outOfFuel => exact ⟨[], by simp [finish]⟩

theorem resume_trace (c : Conn σ Cmd Store) (script : List ReadStep) :
    ∃ more, (resume env c script).2.trace = c.trace ++ more := by
  obtain ⟨m1, h1⟩ := readLoop_trace env script c
  obtain ⟨m2, h2⟩ := finish_trace env (readLoop env script c)
  exact ⟨m1 ++ m2, by unfold resume; rw [h2, h1, List.append_assoc]⟩

end Trace

/-! ## How the loops can be left -/

section Leaving

variable (env : Env σ Cmd Store)

theorem closeCount_append (a b : List (Event Cmd)) :
    closeCount (a ++ b) = closeCount a + closeCount b := by
  simp [closeCount]

theorem runCommand_closeCount (c : Conn σ Cmd Store) :
    closeCount (runCommand env c).conn.trace = closeCount c.trace := by
  unfold runCommand
  split
  · rfl
  · split
    · simp only
      split
      · simp [Ran.conn, closeCount]
      · simp [Ran.conn, closeCount]
      · split <;> simp [Ran.conn, closeCount]
    · rfl

theorem processBuffer_closeCount (n : Nat) (c : Conn σ Cmd Store) (buf : Bytes) :
    closeCount (processBuffer env n c buf).2.1.trace = closeCount c.trace := by
  induction n generalizing c buf with
  | zero => simp [processBuffer]
  | succ n ih =>
    unfold processBuffer
    split
    · rfl
    · cases h1 : parseHeader env c buf with
      | stop e c1 b1 =>
        simp only [(parseHeader_trace env c buf).2 e c1 b1 h1]
      | next c1 b1 =>
        simp only
        have h1t := (parseHeader_trace env c buf).1 c1 b1 h1
        have h2t := fillArgument_trace c1 b1
        have h3t := runCommand_closeCount env (fillArgument c1 b1).1
        cases h3 : runCommand env (fillArgument c1 b1).1 with
        | raised f c3 =>
          rw [h3] at h3t
          simp only [Ran.conn] at h3t
          simp only
          rw [h3t, h2t, h1t]
        | done c3 =>
          rw [h3] at h3t
          simp only [Ran.conn] at h3t
          simp only
          rw [ih, h3t, h2t, h1t]

theorem readLoop_closeCount (script : List ReadStep) (c : Conn σ Cmd Store) :
    closeCount (readLoop env script c).2.trace = closeCount c.trace := by
  induction script generalizing c with
  | nil => rfl
  | cons step rest ih =>
    unfold readLoop
    split
    · rfl
    · rename_i buf _
      split
      · have h1 := processBuffer_closeCount env (passFuel buf) c buf
        unfold processRead
        rcases hr : processBuffer env (passFuel buf) c buf with ⟨e, c1, b1⟩
        rw [hr] at h1
        simp only at h1
        cases e <;> simp only [afterPass] <;> first | (rw [ih, h1]) | exact h1
      · rfl

/-- The outer loop is never left for want of iterations, and it meets the
underflowing `memmove` only with a lexer that reports more bytes than it was
given. -/
theorem readLoop_exit (script : List ReadStep) (c : Conn σ Cmd Store) :
    (readLoop env script c).1 ≠ LoopExit.outOfFuel ∧
      ((∀ s input p parsed found,
          env.lexer.Parse s input = .ok (p, parsed, found) → parsed ≤ input.length) →
        (readLoop env script c).1 ≠ LoopExit.undefinedBehaviour) := by
  induction script generalizing c with
  | nil => exact ⟨by simp [readLoop], fun _ => by simp [readLoop]⟩
  | cons step rest ih =>
    unfold readLoop
    split
    · exact ⟨by simp, fun _ => by simp⟩
    · rename_i buf _
      split
      · have hfuel := processBuffer_ends env (passFuel buf) c buf (loopMeasure_lt_passFuel c buf)
        have hdef := fun hl => processBuffer_defined env hl (passFuel buf) c buf
        unfold processRead
        rcases hr : processBuffer env (passFuel buf) c buf with ⟨e, c1, b1⟩
        rw [hr] at hfuel hdef
        simp only at hfuel hdef
        cases e with
        | drained => exact ih c1
        | needMore => exact ih c1
        | thrown g =>
          simp only [afterPass]
          exact ⟨by simp, fun _ => by simp⟩
        | undefinedBehaviour =>
          simp only [afterPass]
          exact ⟨by simp, fun hl => absurd rfl (hdef hl)⟩
        | outOfFuel => exact absurd rfl hfuel
      · exact ⟨by simp, fun _ => by simp⟩

/-- A script in which some `read` fails or finds the peer closed does not
leave the thread blocked in `read`. -/
theorem readLoop_leaves (script : List ReadStep) (c : Conn σ Cmd Store)
    (hends : ∃ s ∈ script, s.result = .failed ∨ s.result = .data []) :
    (readLoop env script c).1 ≠ LoopExit.blockedInRead := by
  induction script generalizing c with
  | nil =>
    obtain ⟨s, hs, _⟩ := hends
    exact absurd hs (List.not_mem_nil s)
  | cons step rest ih =>
    unfold readLoop
    split
    · simp
    · rename_i buf hbuf
      split
      · rename_i hcond
        have hrest : ∃ s ∈ rest, s.result = .failed ∨ s.result = .data [] := by
          obtain ⟨s, hs, h⟩ := hends
          rcases List.mem_cons.mp hs with heq | hmem
          · subst heq
            rw [hbuf] at h
            rcases h with h | h
            · cases h
            · simp only [ReadResult.data.injEq] at h
              subst h
              simp at hcond
          · exact ⟨s, hmem, h⟩
        rcases hr : processRead env c buf with ⟨e, c1, b1⟩
        cases e <;> simp only [afterPass] <;> first | exact ih c1 hrest | simp
      · simp

end Leaving

/-! ## The accumulator is empty between commands -/

section Invariant

variable (env : Env σ Cmd Store)

theorem parseHeader_idleEmpty {c : Conn σ Cmd Store} {buf : Bytes} (hc : IdleEmpty c) :
    (∀ c1 b1, parseHeader env c buf = .next c1 b1 → IdleEmpty c1) ∧
      (∀ e c1 b1, parseHeader env c buf = .stop e c1 b1 → IdleEmpty c1) := by
  unfold parseHeader
  split
  · exact ⟨fun c1 b1 h => (by cases h; exact hc), fun e c1 b1 h => (by cases h)⟩
  · rename_i hidle
    have hempty := hc hidle
    split
    · exact ⟨fun c1 b1 h => (by cases h), fun e c1 b1 h => (by cases h; exact hc)⟩
    · rename_i p parsed found _
      split
      · exact ⟨fun c1 b1 h => (by cases h),
          fun e c1 b1 h => (by cases h; exact fun _ => hempty)⟩
      · rename_i c2 hb
        have hc2 : IdleEmpty c2 := fun _ => (buildCommand_trace env hb).2.2.trans hempty
        unfold shiftParsed
        split
        · exact ⟨fun c1 b1 h => (by cases h), fun e c1 b1 h => (by cases h; exact hc2)⟩
        · split
          · exact ⟨fun c1 b1 h => (by cases h), fun e c1 b1 h => (by cases h; exact hc2)⟩
          · exact ⟨fun c1 b1 h => (by cases h; exact hc2), fun e c1 b1 h => (by cases h)⟩

theorem fillArgument_idleEmpty {c : Conn σ Cmd Store} (buf : Bytes) (hc : IdleEmpty c) :
    IdleEmpty (fillArgument c buf).1 := by
  unfold fillArgument
  split
  · rename_i h
    intro hidle
    simp only at hidle
    rw [hidle] at h
    simp at h
  · exact hc

theorem runCommand_idleEmpty {c : Conn σ Cmd Store} (hc : IdleEmpty c) :
    IdleEmpty (runCommand env c).conn := by
  unfold runCommand
  split
  · exact hc
  · rename_i cmd hcmd
    split
    · simp only
      split
      · intro h; simp only [Ran.conn] at h; rw [hcmd] at h; cases h
      · intro h; simp only [Ran.conn] at h; rw [hcmd] at h; cases h
      · split
        · intro _; rfl
        · intro h; simp only [Ran.conn] at h; rw [hcmd] at h; cases h
    · exact hc

theorem processBuffer_idleEmpty (n : Nat) (c : Conn σ Cmd Store) (buf : Bytes)
    (hc : IdleEmpty c) : IdleEmpty (processBuffer env n c buf).2.1 := by
  induction n generalizing c buf with
  | zero => exact hc
  | succ n ih =>
    unfold processBuffer
    split
    · exact hc
    · cases h1 : parseHeader env c buf with
      | stop e c1 b1 => exact (parseHeader_idleEmpty env hc).2 e c1 b1 h1
      | next c1 b1 =>
        simp only
        have h2 := fillArgument_idleEmpty b1 ((parseHeader_idleEmpty env hc).1 c1 b1 h1)
        have h3 := runCommand_idleEmpty env h2
        cases h3r : runCommand env (fillArgument c1 b1).1 with
        | raised f c3 =>
          rw [h3r] at h3
          exact h3
        | done c3 =>
          rw [h3r] at h3
          exact ih c3 _ h3

/-- In every state the outer loop can reach from the start of
`ProcessConnection`, the accumulator is empty whenever no command is
pending. -/
theorem readLoop_idleEmpty (script : List ReadStep) (c : Conn σ Cmd Store)
    (hc : IdleEmpty c) : IdleEmpty (readLoop env script c).2 := by
  induction script generalizing c with
  | nil => exact hc
  | cons step rest ih =>
    unfold readLoop
    split
    · exact hc
    · rename_i buf _
      split
      · have h1 := processBuffer_idleEmpty env (passFuel buf) c buf hc
        unfold processRead
        rcases hr : processBuffer env (passFuel buf) c buf with ⟨e, c1, b1⟩
        rw [hr] at h1
        cases e <;> simp only [afterPass] <;> first | exact ih c1 h1 | exact h1
      · exact hc

theorem initial_idleEmpty (storage : Store) : IdleEmpty (initial env storage) :=
  fun _ => rfl

end Invariant

/-! ## The argument phase across reads -/

section Argument

variable (env : Env σ Cmd Store)

theorem Delivers.data {s : ReadStep} (h : Delivers s) :
    ∃ b, s.result = .data b ∧ 0 < b.length ∧ b.length ≤ BUFFER_SIZE := by
  unfold Delivers at h
  split at h
  · rename_i b hb
    exact ⟨b, hb, h⟩
  · exact absurd h id

theorem payload_cons (s : ReadStep) (rest : List ReadStep) :
    payload (s :: rest) = s.result.bytes ++ payload rest := by
  simp [payload]

theorem payload_nil : payload [] = [] := rfl

/-- While the reads bring fewer bytes than the pending command still needs,
every one of them goes to the accumulator, nothing is executed, and the loop
goes on to the next `read`. -/
theorem readLoop_fill_short_then (script tail : List ReadStep) :
    ∀ (c : Conn σ Cmd Store) (cmd : Cmd), c.command_to_execute = some cmd →
      (∀ s ∈ script, Delivers s) → (payload script).length < c.arg_remains →
      readLoop env (script ++ tail) c =
        readLoop env tail
          { c with argument_for_command := c.argument_for_command ++ payload script,
                   arg_remains := c.arg_remains - (payload script).length } := by
  induction script with
  | nil =>
    intro c cmd _ _ _
    simp [payload_nil]
  | cons step rest ih =>
    intro c cmd hc hd hshort
    obtain ⟨b, hb, hpos, _⟩ := (hd step (List.mem_cons_self _ _)).data
    rw [payload_cons, hb] at hshort
    simp only [ReadResult.bytes, List.length_append] at hshort
    rw [List.cons_append, readLoop]
    simp only [hb]
    rw [if_pos ⟨hpos, Or.inr (by simp [hc])⟩, processRead_fill_short env b hc (by omega)]
    simp only [afterPass]
    have hrest := ih
      { c with argument_for_command := c.argument_for_command ++ b,
               arg_remains := c.arg_remains - b.length }
      cmd hc (fun s hs => hd s (List.mem_cons_of_mem _ hs))
      (by show (payload rest).length < c.arg_remains - b.length; omega)
    rw [hrest]
    simp only [payload_cons, hb, ReadResult.bytes, List.append_assoc, List.length_append,
      Nat.sub_sub]

/-- The same when the script ends there: the thread is blocked in `read`. -/
theorem readLoop_fill_short (script : List ReadStep) (c : Conn σ Cmd Store) (cmd : Cmd)
    (hc : c.command_to_execute = some cmd) (hd : ∀ s ∈ script, Delivers s)
    (hshort : (payload script).length < c.arg_remains) :
    readLoop env script c =
      (LoopExit.blockedInRead,
        { c with argument_for_command := c.argument_for_command ++ payload script,
                 arg_remains := c.arg_remains - (payload script).length }) := by
  have h := readLoop_fill_short_then env script [] c cmd hc hd hshort
  rw [List.append_nil] at h
  rw [h, readLoop]

theorem argRemainsAfterBuild_fits {L : Nat} (hL : 0 < L) (hfit : L + 2 < SIZE_MOD) :
    argRemainsAfterBuild L = L + 2 := by
  unfold argRemainsAfterBuild
  rw [if_pos hL, Nat.mod_eq_of_lt hfit]

theorem take_across (a b : Bytes) (n : Nat) (h : a.length ≤ n) :
    a ++ b.take (n - a.length) = (a ++ b).take n := by
  rw [List.take_append_eq_append_take, List.take_of_length_le h]

/-- The first `if` of the body on an idle connection when the lexer
completes a header within the buffer: the command is built, `arg_remains` is
what lines 115-118 give for the declared length, and the bytes of the header
are shifted out. -/
theorem parseHeader_found {c0 : Conn σ Cmd Store} {first : Bytes} {p p1 : σ} {n L : Nat}
    {cmd : Cmd} (hidle : c0.command_to_execute = none)
    (hparse : env.lexer.Parse c0.parser first = .ok (p, n, true))
    (hn : 0 < n ∧ n ≤ first.length) (hbuild : env.lexer.Build p = .ok (p1, cmd, L)) :
    parseHeader env c0 first =
      .next { c0 with parser := p1, command_to_execute := some cmd,
                      arg_remains := argRemainsAfterBuild L } (first.drop n) := by
  unfold parseHeader
  rw [hidle]
  simp only [hparse, buildCommand, hbuild, if_true, shiftParsed]
  rw [if_neg (by omega), if_neg (by omega)]

/-- A header that declares an argument: the rest of the pass is the pass of
a connection with that command pending over the bytes behind the header. -/
theorem processRead_header {c0 : Conn σ Cmd Store} {first : Bytes} {p p1 : σ} {n L : Nat}
    {cmd : Cmd} (hidle : c0.command_to_execute = none)
    (hparse : env.lexer.Parse c0.parser first = .ok (p, n, true))
    (hn : 0 < n ∧ n ≤ first.length) (hbuild : env.lexer.Build p = .ok (p1, cmd, L))
    (hneed : 0 < argRemainsAfterBuild L) :
    processRead env c0 first =
      processRead env
        { c0 with parser := p1, command_to_execute := some cmd,
                  arg_remains := argRemainsAfterBuild L } (first.drop n) := by
  rw [processRead_unfold, if_neg (by omega), parseHeader_found env hidle hparse hn hbuild]
  simp only
  rcases Nat.eq_zero_or_pos (first.drop n).length with hz | hpos
  · have hnil : first.drop n = [] := List.length_eq_zero.mp hz
    rw [hnil, processRead_nil]
    have hfill : fillArgument
        { c0 with parser := p1, command_to_execute := some cmd,
                  arg_remains := argRemainsAfterBuild L } ([] : Bytes) =
        ({ c0 with parser := p1, command_to_execute := some cmd,
                   arg_remains := argRemainsAfterBuild L }, []) := by
      unfold fillArgument
      simp
    rw [hfill]
    simp only
    rw [runCommand_waiting env hneed]
    simp only
    rw [processRead_nil]
  · conv_rhs => rw [processRead_unfold, if_neg (by omega), parseHeader_pending env _ rfl]

/-- A header that declares no argument: the command runs at once, and the
pass goes on, from whatever state that leaves, with the bytes behind the
header. -/
theorem processRead_header_no_argument {c0 : Conn σ Cmd Store} {first : Bytes} {p p1 : σ}
    {n L : Nat} {cmd : Cmd} (hidle : c0.command_to_execute = none)
    (hparse : env.lexer.Parse c0.parser first = .ok (p, n, true))
    (hn : 0 < n ∧ n ≤ first.length) (hbuild : env.lexer.Build p = .ok (p1, cmd, L))
    (hneed : argRemainsAfterBuild L = 0) :
    processRead env c0 first =
      match runCommand env
          { c0 with parser := p1, command_to_execute := some cmd, arg_remains := 0 } with
      | .raised f c3 => (Exit.thrown f, c3, first.drop n)
      | .done c3 => processRead env c3 (first.drop n) := by
  rw [processRead_unfold, if_neg (by omega), parseHeader_found env hidle hparse hn hbuild]
  simp only [hneed]
  rw [fillArgument_idle _ rfl]

/-- Once the reads have brought as many bytes as the pending command still
needed, the first effect after the present trace is the call of `Execute`
for that command, with the accumulator extended by exactly those bytes. -/
theorem readLoop_executes (others : List ReadStep) :
    ∀ (c : Conn σ Cmd Store) (cmd : Cmd) (rest : List ReadStep),
      c.command_to_execute = some cmd → 0 < c.arg_remains →
      (∀ s ∈ others, Delivers s) → c.arg_remains ≤ (payload others).length →
      ∃ more, (readLoop env (others ++ rest) c).2.trace =
        c.trace ++
          Event.execute cmd (c.argument_for_command ++ (payload others).take c.arg_remains) ::
            more := by
  induction others with
  | nil =>
    intro c cmd rest _ hpos _ hlen
    simp only [payload_nil, List.length_nil] at hlen
    omega
  | cons step os ih =>
    intro c cmd rest hc hpos hd hlen
    obtain ⟨b, hb, hbpos, _⟩ := (hd step (List.mem_cons_self _ _)).data
    rw [payload_cons, hb] at hlen ⊢
    simp only [ReadResult.bytes, List.length_append] at hlen ⊢
    rw [List.cons_append]
    unfold readLoop
    simp only [hb]
    rw [if_pos ⟨hbpos, Or.inr (by simp [hc])⟩]
    rcases Nat.lt_or_ge b.length c.arg_remains with hshort | hfull
    · rw [processRead_fill_short env b hc hshort]
      simp only [afterPass]
      obtain ⟨more, hm⟩ := ih
        { c with argument_for_command := c.argument_for_command ++ b,
                 arg_remains := c.arg_remains - b.length }
        cmd rest hc (by show 0 < c.arg_remains - b.length; omega)
        (fun s hs => hd s (List.mem_cons_of_mem _ hs))
        (by show c.arg_remains - b.length ≤ _; omega)
      refine ⟨more, ?_⟩
      rw [hm]
      simp only [List.append_assoc]
      rw [take_across b (payload os) c.arg_remains (Nat.le_of_lt hshort)]
    · rw [processRead_fill_complete env b hc hpos hfull,
        List.take_append_of_le_length hfull]
      obtain ⟨m1, h1⟩ := runCommand_calls_execute env
        (c := { c with argument_for_command := c.argument_for_command ++ b.take c.arg_remains,
                       arg_remains := 0 }) hc rfl
      cases h3 : runCommand env
        { c with argument_for_command := c.argument_for_command ++ b.take c.arg_remains,
                 arg_remains := 0 } with
      | raised f c3 =>
        rw [h3] at h1
        exact ⟨m1, h1⟩
      | done c3 =>
        rw [h3] at h1
        simp only [Ran.conn] at h1
        simp only
        obtain ⟨m2, h2⟩ := processRead_trace env c3 (b.drop c.arg_remains)
        obtain ⟨m3, h3t⟩ := afterPass_trace (fun c1 => readLoop env (os ++ rest) c1)
          (fun c1 => readLoop_trace env (os ++ rest) c1)
          (processRead env c3 (b.drop c.arg_remains))
        refine ⟨m1 ++ (m2 ++ m3), ?_⟩
        rw [h3t, h2, h1]
        simp only [List.append_assoc, List.cons_append]

end Argument

/-! ## C3: the argument phase takes `arg_remains` bytes -/

/-- C3 fails as stated: the header `set k 0 0 18446744073709551614` declares
the argument length `L = 2 ^ 64 - 2 > 0`; the `arg_remains += 2` of line 117
wraps to 0, and `Execute` is called in the pass that completed the header,
with an empty accumulator, when none of the `L + 2` argument-phase bytes has
been consumed. -/
theorem argument_length_wraps_counterexample :
    0 < declaredLength "set k 0 0 18446744073709551614".toList ∧
      declaredLength "set k 0 0 18446744073709551614".toList + 2 = SIZE_MOD ∧
      argRemainsAfterBuild (declaredLength "set k 0 0 18446744073709551614".toList) = 0 ∧
      (ProcessConnection textEnv [] [got "set k 0 0 18446744073709551614\r\n"]).2.trace =
        [Event.execute "set k 0 0 18446744073709551614".toList [],
          Event.send "STORED\r\n".toList] := by
  decide

/-- C3 as the code has it: a command whose header declared the argument
length `L > 0`, with `L + 2` within `std::size_t`, has just been built, so `arg_remains` holds what
lines 115-118 stored and the accumulator is empty. Whatever reads `pre` bring
fewer than `L + 2` bytes in all, after them `Execute` has not been called
(the trace is unchanged), the command is still pending, the thread is blocked
in `read`, and `arg_remains` plus the length of the accumulator is `L + 2`.
The read `last` that brings the byte number `L + 2` makes the handler call
`Execute` in that same pass, with an accumulator of exactly `L + 2` bytes, and
the bytes of `last` behind those `L + 2` are left to the rest of the pass,
which starts from an idle state. -/
theorem argument_phase_exact (env : Env σ Cmd Store) (c : Conn σ Cmd Store) (cmd : Cmd)
    (L : Nat) (pre : List ReadStep) (last : Bytes)
    (hL : 0 < L) (hfit : L + 2 < SIZE_MOD)
    (hcmd : c.command_to_execute = some cmd)
    (hrem : c.arg_remains = argRemainsAfterBuild L)
    (harg : c.argument_for_command = [])
    (hpre : ∀ s ∈ pre, Delivers s)
    (hshort : (payload pre).length < L + 2)
    (hfull : L + 2 ≤ (payload pre).length + last.length) :
    readLoop env pre c =
        (LoopExit.blockedInRead,
          { c with argument_for_command := payload pre,
                   arg_remains := L + 2 - (payload pre).length }) ∧
      (readLoop env pre c).2.arg_remains +
          (readLoop env pre c).2.argument_for_command.length = L + 2 ∧
      processRead env
          { c with argument_for_command := payload pre,
                   arg_remains := L + 2 - (payload pre).length }
          last =
        (match runCommand env
            { c with argument_for_command := (payload pre ++ last).take (L + 2),
                     arg_remains := 0 } with
          | .raised f c3 =>
            (Exit.thrown f, c3, last.drop (L + 2 - (payload pre).length))
          | .done c3 =>
            processRead env c3 (last.drop (L + 2 - (payload pre).length))) ∧
      (∃ more,
        (runCommand env
            { c with argument_for_command := (payload pre ++ last).take (L + 2),
                     arg_remains := 0 }).conn.trace =
          c.trace ++ Event.execute cmd ((payload pre ++ last).take (L + 2)) :: more) ∧
      ((payload pre ++ last).take (L + 2)).length = L + 2 ∧
      (∀ c3,
        runCommand env
            { c with argument_for_command := (payload pre ++ last).take (L + 2),
                     arg_remains := 0 } = .done c3 →
          c3.command_to_execute = none ∧ c3.argument_for_command = []) := by
  have hr : c.arg_remains = L + 2 := by rw [hrem, argRemainsAfterBuild_fits hL hfit]
  have hpre1 : readLoop env pre c =
      (LoopExit.blockedInRead,
        { c with argument_for_command := payload pre,
                 arg_remains := L + 2 - (payload pre).length }) := by
    rw [readLoop_fill_short env pre c cmd hcmd hpre (by omega)]
    simp only [harg, hr, List.nil_append]
  refine ⟨hpre1, ?_, ?_, ?_, ?_, ?_⟩
  · rw [hpre1]
    show L + 2 - (payload pre).length + (payload pre).length = L + 2
    omega
  · have h := processRead_fill_complete env
      (c := { c with argument_for_command := payload pre,
                     arg_remains := L + 2 - (payload pre).length })
      last hcmd
      (by show 0 < L + 2 - (payload pre).length; omega)
      (by show L + 2 - (payload pre).length ≤ _; omega)
    rw [h]
    simp only [take_across _ _ _ (Nat.le_of_lt hshort)]
  · exact runCommand_calls_execute env (c := { c with
      argument_for_command := (payload pre ++ last).take (L + 2),
      arg_remains := 0 }) hcmd rfl
  · rw [List.length_take, List.length_append]
    omega
  · intro c3 h3
    have := runCommand_done_idle env (c := { c with
      argument_for_command := (payload pre ++ last).take (L + 2),
      arg_remains := 0 }) hcmd rfl h3
    exact ⟨this.1, this.2.1⟩

/-- C3 as the code has it, at the text protocol: after the header
`set foo 0 0 3\r\n` the read
`ba` leaves the command pending, and the read `r\r\nget foo\r\n` completes
it. -/
theorem argument_phase_exact_witness :
    (processRead textEnv (initial textEnv []) "set foo 0 0 3\r\n".toList).2.1.arg_remains =
        argRemainsAfterBuild 3 ∧
      readLoop textEnv [got "ba"]
          (processRead textEnv (initial textEnv []) "set foo 0 0 3\r\n".toList).2.1 =
        (LoopExit.blockedInRead,
          { arg_remains := 3, parser := "set foo 0 0 3".toList,
            argument_for_command := "ba".toList,
            command_to_execute := some "set foo 0 0 3".toList, storage := [], trace := [] }) :=
  ⟨by decide,
    (argument_phase_exact textEnv
      (processRead textEnv (initial textEnv []) "set foo 0 0 3\r\n".toList).2.1
      "set foo 0 0 3".toList 3 [got "ba"] "r\r\nget foo\r\n".toList
      (by decide) (by decide) (by decide) (by decide) (by decide)
      (by decide)
      (by decide) (by decide)).1⟩

/-! ## One byte at a time -/

section Bytewise

variable (env : Env σ Cmd Store)

theorem Agree.refl (r : Exit × Conn σ Cmd Store) : Agree r r :=
  ⟨rfl, rfl, rfl, fun _ => rfl⟩

theorem Agree.trans {r1 r2 r3 : Exit × Conn σ Cmd Store} (h12 : Agree r1 r2)
    (h23 : Agree r2 r3) : Agree r1 r3 :=
  ⟨h12.1.trans h23.1, h12.2.1.trans h23.2.1, h12.2.2.1.trans h23.2.2.1,
    fun h => (h12.2.2.2 h).trans (h23.2.2.2 (h12.1 ▸ h))⟩

theorem thenFeed_agree_left (next : Conn σ Cmd Store → Exit × Conn σ Cmd Store)
    {r1 r2 : Exit × Conn σ Cmd Store} (h : Agree r1 r2) :
    Agree (thenFeed next r1) (thenFeed next r2) := by
  obtain ⟨e1, c1⟩ := r1
  obtain ⟨e2, c2⟩ := r2
  obtain ⟨he, ht, hs, hd⟩ := h
  simp only at he ht hs hd
  subst he
  cases e1 with
  | drained =>
    have := hd rfl
    subst this
    exact Agree.refl _
  | needMore => exact ⟨rfl, ht, hs, fun h => by cases h⟩
  | thrown f => exact ⟨rfl, ht, hs, fun h => by cases h⟩
  | undefinedBehaviour => exact ⟨rfl, ht, hs, fun h => by cases h⟩
  | outOfFuel => exact ⟨rfl, ht, hs, fun h => by cases h⟩

theorem thenFeed_agree_right {next1 next2 : Conn σ Cmd Store → Exit × Conn σ Cmd Store}
    (h : ∀ c, Agree (next1 c) (next2 c)) (r : Exit × Conn σ Cmd Store) :
    Agree (thenFeed next1 r) (thenFeed next2 r) := by
  obtain ⟨e, c⟩ := r
  cases e with
  | drained => exact h c
  | needMore => exact Agree.refl _
  | thrown f => exact Agree.refl _
  | undefinedBehaviour => exact Agree.refl _
  | outOfFuel => exact Agree.refl _

theorem buildCommand_resets (c : Conn σ Cmd Store) (s p : σ) (found : Bool) :
    buildCommand env { c with parser := s } p found = buildCommand env c p found := by
  unfold buildCommand
  split
  · split <;> rfl
  · rfl

/-- The first iteration of a pass on an idle connection, in terms of what
`Parse` answered. -/
theorem processRead_idle_parse {c : Conn σ Cmd Store} {buf : Bytes} {p : σ} {n : Nat}
    {found : Bool} (hidle : c.command_to_execute = none)
    (hparse : env.lexer.Parse c.parser buf = .ok (p, n, found))
    (hn : 0 < n ∧ n ≤ buf.length) :
    processRead env c buf =
      match buildCommand env c p found with
      | .error f => (Exit.thrown f, { c with parser := p }, buf)
      | .ok c1 =>
        match runCommand env (fillArgument c1 (buf.drop n)).1 with
        | .raised f c3 => (Exit.thrown f, c3, (fillArgument c1 (buf.drop n)).2)
        | .done c3 => processRead env c3 (fillArgument c1 (buf.drop n)).2 := by
  rw [processRead_unfold, if_neg (by omega)]
  unfold parseHeader
  rw [hidle]
  simp only [hparse]
  cases buildCommand env c p found with
  | error f => rfl
  | ok c1 =>
    simp only [shiftParsed]
    rw [if_neg (by omega), if_neg (by omega)]

theorem processRead_idle_error {c : Conn σ Cmd Store} {buf : Bytes} {f : Fault}
    (hidle : c.command_to_execute = none) (hne : buf ≠ [])
    (hparse : env.lexer.Parse c.parser buf = .error f) :
    processRead env c buf = (Exit.thrown f, c, buf) := by
  have hlen : buf.length ≠ 0 := fun h => hne (List.length_eq_zero.mp h)
  rw [processRead_unfold, if_neg hlen]
  unfold parseHeader
  rw [hidle]
  simp only [hparse]

theorem processRead_build_error {c : Conn σ Cmd Store} {buf : Bytes} {p : σ} {n : Nat}
    {f : Fault} (hidle : c.command_to_execute = none)
    (hparse : env.lexer.Parse c.parser buf = .ok (p, n, true))
    (hn : 0 < n ∧ n ≤ buf.length) (hbuild : env.lexer.Build p = .error f) :
    processRead env c buf = (Exit.thrown f, { c with parser := p }, buf) := by
  rw [processRead_idle_parse env hidle hparse hn]
  simp only [buildCommand, hbuild, if_true]

/-- A read that ends inside a header: the lexer takes all of it and keeps
what it has seen in its state. -/
theorem processRead_partial_header {c : Conn σ Cmd Store} {buf : Bytes} {p : σ}
    (hidle : c.command_to_execute = none) (hne : buf ≠ [])
    (hparse : env.lexer.Parse c.parser buf = .ok (p, buf.length, false)) :
    processRead env c buf = (Exit.drained, { c with parser := p }, []) := by
  have hlen : 0 < buf.length := List.length_pos.mpr hne
  rw [processRead_idle_parse env hidle hparse ⟨hlen, Nat.le_refl _⟩]
  simp only [buildCommand, Bool.false_eq_true, if_false, List.drop_length]
  have hfill : fillArgument { c with parser := p } ([] : Bytes) = ({ c with parser := p }, []) := by
    unfold fillArgument
    rw [if_neg (by simp [hidle])]
  rw [hfill]
  simp only
  rw [runCommand_idle env (c := { c with parser := p }) hidle]
  simp only
  rw [processRead_nil]

/-- On an idle connection, a pass over `x :: xs` cannot be told apart from a
pass over the byte `x` followed by a pass over `xs`. -/
theorem processRead_cons_idle (step : σ → Char → Except Fault (σ × Bool))
    (hinc : ∀ s input, env.lexer.Parse s input = runLexer step s input)
    (c : Conn σ Cmd Store) (x : Char) (xs : Bytes)
    (hidle : c.command_to_execute = none) (hxs : xs ≠ []) :
    Agree (outcome (processRead env c (x :: xs)))
      (thenFeed (fun c1 => outcome (processRead env c1 xs))
        (outcome (processRead env c [x]))) := by
  have hx1 := (hinc c.parser [x]).trans (runLexer_single step c.parser x)
  have hxs1 := hinc c.parser (x :: xs)
  rw [runLexer] at hxs1
  cases hstep : step c.parser x with
  | error f =>
    rw [hstep] at hx1 hxs1
    simp only at hx1 hxs1
    rw [processRead_idle_error env hidle (List.cons_ne_nil _ _) hxs1,
      processRead_idle_error env hidle (List.cons_ne_nil _ _) hx1]
    exact Agree.refl _
  | ok r =>
    obtain ⟨s1, found⟩ := r
    cases found with
    | true =>
      rw [hstep] at hx1 hxs1
      simp only at hx1 hxs1
      have hn1 : 0 < 1 ∧ 1 ≤ (x :: xs).length := ⟨Nat.one_pos, by simp⟩
      have hn2 : 0 < 1 ∧ 1 ≤ [x].length := ⟨Nat.one_pos, by simp⟩
      cases hbuild : env.lexer.Build s1 with
      | error f =>
        rw [processRead_build_error env hidle hxs1 hn1 hbuild,
          processRead_build_error env hidle hx1 hn2 hbuild]
        exact Agree.refl _
      | ok b =>
        obtain ⟨p1, cmd, L⟩ := b
        rcases Nat.eq_zero_or_pos (argRemainsAfterBuild L) with hz | hpos
        · rw [processRead_header_no_argument env hidle hxs1 hn1 hbuild hz,
            processRead_header_no_argument env hidle hx1 hn2 hbuild hz]
          simp only [List.drop_succ_cons, List.drop_zero, List.drop_nil]
          generalize runCommand env
            { c with parser := p1, command_to_execute := some cmd, arg_remains := 0 } = r
          cases r with
          | raised f c3 => exact Agree.refl _
          | done c3 =>
            simp only [processRead_nil, outcome, thenFeed]
            exact Agree.refl _
        · rw [processRead_header env hidle hxs1 hn1 hbuild hpos,
            processRead_header env hidle hx1 hn2 hbuild hpos]
          simp only [List.drop_succ_cons, List.drop_zero, List.drop_nil, processRead_nil,
            outcome, thenFeed]
          exact Agree.refl _
    | false =>
      rw [hstep] at hx1 hxs1
      simp only at hx1 hxs1
      have hfirst := processRead_partial_header env hidle (List.cons_ne_nil x []) hx1
      rw [hfirst]
      simp only [outcome, thenFeed]
      cases hR : runLexer step s1 xs with
      | error f =>
        rw [hR] at hxs1
        simp only at hxs1
        rw [processRead_idle_error env hidle (List.cons_ne_nil _ _) hxs1,
          processRead_idle_error env (c := { c with parser := s1 }) hidle hxs
            ((hinc _ _).trans hR)]
        exact ⟨rfl, rfl, rfl, fun h => by cases h⟩
      | ok r2 =>
        obtain ⟨s2, n, fd⟩ := r2
        rw [hR] at hxs1
        simp only at hxs1
        have hnpos := runLexer_pos step hxs hR
        have hnle := runLexer_parsed_le step xs _ _ _ _ hR
        rw [processRead_idle_parse env hidle hxs1 ⟨by omega, by simp only [List.length_cons]; omega⟩,
          processRead_idle_parse env (c := { c with parser := s1 }) hidle ((hinc _ _).trans hR)
            ⟨hnpos, hnle⟩,
          buildCommand_resets env c s1 s2 fd]
        simp only [List.drop_succ_cons]
        cases buildCommand env c s2 fd with
        | error f => exact Agree.refl _
        | ok c1 => exact Agree.refl _

/-- The same with a command pending. -/
theorem processRead_cons_pending (step : σ → Char → Except Fault (σ × Bool))
    (hinc : ∀ s input, env.lexer.Parse s input = runLexer step s input)
    (c : Conn σ Cmd Store) (x : Char) (xs : Bytes) (cmd : Cmd)
    (hc : c.command_to_execute = some cmd) (hxs : xs ≠ []) :
    Agree (outcome (processRead env c (x :: xs)))
      (thenFeed (fun c1 => outcome (processRead env c1 xs))
        (outcome (processRead env c [x]))) := by
  have hxslen : 0 < xs.length := List.length_pos.mpr hxs
  rcases Nat.eq_zero_or_pos c.arg_remains with hz | hpos
  · have hL : processRead env c (x :: xs) =
        match runCommand env c with
        | .raised f c3 => (Exit.thrown f, c3, x :: xs)
        | .done c3 => processRead env c3 (x :: xs) := by
      rw [processRead_unfold, if_neg (by simp), parseHeader_pending env _ hc]
      simp only [fillArgument_idle _ hz]
    have hR : processRead env c [x] =
        match runCommand env c with
        | .raised f c3 => (Exit.thrown f, c3, [x])
        | .done c3 => processRead env c3 [x] := by
      rw [processRead_unfold, if_neg (by simp), parseHeader_pending env _ hc]
      simp only [fillArgument_idle _ hz]
    rw [hL, hR]
    cases h3 : runCommand env c with
    | raised f c3 => exact Agree.refl _
    | done c3 =>
      simp only
      exact processRead_cons_idle env step hinc c3 x xs (runCommand_done_idle env hc hz h3).1 hxs
  · rcases Nat.lt_or_ge (x :: xs).length c.arg_remains with hshort | hfull
    · have hs1 : [x].length < c.arg_remains := by
        simp only [List.length_cons, List.length_nil] at hshort ⊢
        omega
      rw [processRead_fill_short env (x :: xs) hc hshort, processRead_fill_short env [x] hc hs1]
      simp only [outcome, thenFeed]
      rw [processRead_fill_short env
        (c := { c with argument_for_command := c.argument_for_command ++ [x],
                       arg_remains := c.arg_remains - [x].length }) xs hc
        (by simp only [List.length_cons, List.length_nil] at hshort ⊢; omega)]
      simp only [List.append_assoc, List.singleton_append, List.length_cons, List.length_nil,
        Nat.sub_sub]
      rw [Nat.add_comm 1 xs.length]
      exact Agree.refl _
    · rcases Nat.lt_or_ge 1 c.arg_remains with hgt | hle
      · obtain ⟨k, hk⟩ : ∃ k, c.arg_remains = k + 1 := ⟨c.arg_remains - 1, by omega⟩
        have hs1 : [x].length < c.arg_remains := by simpa using hgt
        rw [processRead_fill_complete env (x :: xs) hc hpos hfull,
          processRead_fill_short env [x] hc hs1]
        simp only [outcome, thenFeed]
        rw [processRead_fill_complete env
          (c := { c with argument_for_command := c.argument_for_command ++ [x],
                         arg_remains := c.arg_remains - [x].length }) xs hc
          (by simp only [List.length_cons, List.length_nil]; omega)
          (by simp only [List.length_cons, List.length_nil] at hfull ⊢; omega)]
        simp only [hk, List.take_succ_cons, List.drop_succ_cons, Nat.add_sub_cancel,
          List.length_cons, List.length_nil, List.append_assoc, List.singleton_append,
          Nat.zero_add]
        exact Agree.refl _
      · have h1 : c.arg_remains = 1 := by omega
        rw [processRead_fill_complete env (x :: xs) hc hpos hfull,
          processRead_fill_complete env [x] hc hpos (by simp only [List.length_cons, List.length_nil]; omega)]
        simp only [h1, List.take_succ_cons, List.take_zero, List.drop_succ_cons, List.drop_zero]
        generalize runCommand env
          { c with argument_for_command := c.argument_for_command ++ [x], arg_remains := 0 } = r
        cases r with
        | raised f c3 => exact Agree.refl _
        | done c3 =>
          simp only [processRead_nil, outcome, thenFeed]
          exact Agree.refl _

/-- Under the incremental contract a pass over `x :: xs` cannot be told apart
from a pass over the byte `x` followed by a pass over `xs`. -/
theorem processRead_cons (step : σ → Char → Except Fault (σ × Bool))
    (hinc : ∀ s input, env.lexer.Parse s input = runLexer step s input)
    (c : Conn σ Cmd Store) (x : Char) (xs : Bytes) (hxs : xs ≠ []) :
    Agree (outcome (processRead env c (x :: xs)))
      (thenFeed (fun c1 => outcome (processRead env c1 xs))
        (outcome (processRead env c [x]))) := by
  cases hc : c.command_to_execute with
  | none => exact processRead_cons_idle env step hinc c x xs hc hxs
  | some cmd => exact processRead_cons_pending env step hinc c x xs cmd hc hxs

/-- Under the incremental contract a pass ends because the read is consumed
or because of an exception. -/
theorem processRead_exit_incremental (step : σ → Char → Except Fault (σ × Bool))
    (hinc : ∀ s input, env.lexer.Parse s input = runLexer step s input)
    (c : Conn σ Cmd Store) (buf : Bytes) :
    (processRead env c buf).1 = Exit.drained ∨ ∃ f, (processRead env c buf).1 = Exit.thrown f := by
  have h1 := processBuffer_ends env (passFuel buf) c buf (loopMeasure_lt_passFuel c buf)
  have h2 := processBuffer_defined env
    (fun s input p parsed found hp =>
      runLexer_parsed_le step input s p parsed found ((hinc s input).symm.trans hp))
    (passFuel buf) c buf
  have h3 := processBuffer_consumes env
    (fun s input p parsed found hne hp =>
      runLexer_pos step hne ((hinc s input).symm.trans hp))
    (passFuel buf) c buf
  unfold processRead
  cases he : (processBuffer env (passFuel buf) c buf).1 with
  | drained => exact Or.inl rfl
  | needMore => exact absurd he h3
  | thrown f => exact Or.inr ⟨f, rfl⟩
  | undefinedBehaviour => exact absurd he h2
  | outOfFuel => exact absurd he h1

theorem thenFeed_drained (next : Conn σ Cmd Store → Exit × Conn σ Cmd Store)
    (c : Conn σ Cmd Store) : thenFeed next (Exit.drained, c) = next c := rfl

theorem thenFeed_thrown (next : Conn σ Cmd Store → Exit × Conn σ Cmd Store) (f : Fault)
    (c : Conn σ Cmd Store) : thenFeed next (Exit.thrown f, c) = (Exit.thrown f, c) := rfl

theorem feedBytes_exit (step : σ → Char → Except Fault (σ × Bool))
    (hinc : ∀ s input, env.lexer.Parse s input = runLexer step s input) (buf : Bytes) :
    ∀ c : Conn σ Cmd Store,
      (feedBytes env c buf).1 = Exit.drained ∨ ∃ f, (feedBytes env c buf).1 = Exit.thrown f := by
  induction buf with
  | nil => intro c; exact Or.inl rfl
  | cons x xs ih =>
    intro c
    unfold feedBytes
    rcases hr : processRead env c [x] with ⟨e, c1, b1⟩
    rcases processRead_exit_incremental env step hinc c [x] with h | ⟨f, h⟩
    · rw [hr] at h
      simp only at h
      subst h
      simp only [outcome, thenFeed_drained]
      exact ih c1
    · rw [hr] at h
      simp only at h
      subst h
      simp only [outcome, thenFeed_thrown]
      exact Or.inr ⟨f, rfl⟩

/-- Under the incremental contract a pass over a read cannot be told apart
from passes over its bytes one at a time. -/
theorem processRead_agree_feedBytes (step : σ → Char → Except Fault (σ × Bool))
    (hinc : ∀ s input, env.lexer.Parse s input = runLexer step s input) (buf : Bytes) :
    ∀ c : Conn σ Cmd Store, Agree (outcome (processRead env c buf)) (feedBytes env c buf) := by
  induction buf with
  | nil =>
    intro c
    rw [processRead_nil]
    exact Agree.refl _
  | cons x xs ih =>
    intro c
    cases xs with
    | nil =>
      unfold feedBytes
      rcases hr : processRead env c [x] with ⟨e, c1, b1⟩
      cases e <;> exact Agree.refl _
    | cons y ys =>
      have h1 := processRead_cons env step hinc c x (y :: ys) (List.cons_ne_nil _ _)
      have h2 := thenFeed_agree_right (fun c1 => ih c1) (outcome (processRead env c [x]))
      rw [feedBytes]
      exact Agree.trans h1 h2

theorem thenFeed_thenFeed (next1 next2 : Conn σ Cmd Store → Exit × Conn σ Cmd Store)
    (r : Exit × Conn σ Cmd Store) :
    thenFeed next2 (thenFeed next1 r) = thenFeed (fun c1 => thenFeed next2 (next1 c1)) r := by
  obtain ⟨e, c⟩ := r
  cases e <;> rfl

theorem feedBytes_append (a b : Bytes) :
    ∀ c : Conn σ Cmd Store,
      feedBytes env c (a ++ b) = thenFeed (fun c1 => feedBytes env c1 b) (feedBytes env c a) := by
  induction a with
  | nil => intro c; rfl
  | cons x xs ih =>
    intro c
    rw [List.cons_append, feedBytes, feedBytes, thenFeed_thenFeed]
    congr 1
    funext c1
    exact ih c1

/-- Under the incremental contract, what can be told from outside a
connection whose reads are the given chunks, all received while `running` is
true, is determined by the concatenation of the chunks. -/
theorem readLoop_chunks (step : σ → Char → Except Fault (σ × Bool))
    (hinc : ∀ s input, env.lexer.Parse s input = runLexer step s input)
    (ending : List ReadStep) (chunks : List Bytes) :
    ∀ c : Conn σ Cmd Store, (∀ b ∈ chunks, 0 < b.length) →
      verdict (finish env (readLoop env (chunks.map delivered ++ ending) c)) =
        verdictOfStream env ending (feedBytes env c chunks.flatten) := by
  induction chunks with
  | nil =>
    intro c _
    rfl
  | cons b cs ih =>
    intro c hpos
    have hb : 0 < b.length := hpos b (List.mem_cons_self _ _)
    have hag := processRead_agree_feedBytes env step hinc b c
    have hex := feedBytes_exit env step hinc b c
    rw [List.flatten_cons, feedBytes_append, List.map_cons, List.cons_append, readLoop]
    simp only [delivered]
    rw [if_pos ⟨hb, Or.inl trivial⟩]
    rcases hr : processRead env c b with ⟨e, c1, b1⟩
    rcases hf : feedBytes env c b with ⟨e2, c2⟩
    rw [hr, hf] at hag
    obtain ⟨he, ht, hs, hd⟩ := hag
    simp only [outcome] at he ht hs hd
    subst he
    rw [hf] at hex
    simp only at hex
    rcases hex with he | ⟨f, he⟩
    · subst he
      have hc := hd rfl
      subst hc
      simp only [afterPass, thenFeed_drained]
      exact ih c1 (fun b2 hb2 => hpos b2 (List.mem_cons_of_mem _ hb2))
    · subst he
      simp only [afterPass, thenFeed_thrown]
      cases f with
      | runtime w => simp only [finish, closeConnection, verdict, verdictOfStream, ht]
      | other => simp only [finish, verdict, verdictOfStream, ht]

end Bytewise

/-! ## C1: a recoverable error of `Execute` -/

/-- The inner handler (lines 145-148) throws the `std::runtime_error` again:
the third `if` of the body ends with that exception, `send` has not been
called, and the command is still pending. -/
theorem runCommand_runtime_error (env : Env σ Cmd Store) (c : Conn σ Cmd Store) (cmd : Cmd)
    (st : Store) (what : Bytes) (hc : c.command_to_execute = some cmd) (hr : c.arg_remains = 0)
    (hx : env.Execute cmd c.storage c.argument_for_command = (st, .error (.runtime what))) :
    runCommand env c =
      .raised (.runtime what)
        { c with trace := c.trace ++ [Event.execute cmd c.argument_for_command], storage := st } := by
  unfold runCommand
  rw [hc]
  simp only [hr, if_true, hx]

/-- C1: what the code does when `Execute` raises a `std::runtime_error`. The
read carries `delete a` (whose execution raises, the key being absent)
followed by `get b`, and a further read carries `get c`: the only effects are
the call of `Execute` for `delete a` and the `close` of the socket. No
response at all is sent, the connection is closed, and neither `get b` nor
`get c` is executed. -/
theorem execute_error_closes_connection :
    ProcessConnection textEnv [] [got "delete a\r\nget b\r\n", got "get c\r\n", peerClosed] =
      (Status.returned,
        { arg_remains := 0, parser := [], argument_for_command := [],
          command_to_execute := none, storage := [],
          trace := [Event.execute "delete a".toList [], Event.close] }) := by
  decide

/-! ## C2: the argument given to `Execute` -/

/-- C2 fails as stated: with the header `set foo 0 0 3\r\n`, then `bar`, then
`\r\n` in three reads, `Execute` is called once, with the five bytes
`bar\r\n`, and is not called with `bar`. -/
theorem argument_keeps_terminator_counterexample :
    (ProcessConnection textEnv [] [got "set foo 0 0 3\r\n", got "bar", got "\r\n"]).2.trace =
        [Event.execute "set foo 0 0 3".toList "bar\r\n".toList, Event.send "STORED\r\n".toList] ∧
      Event.execute "set foo 0 0 3".toList "bar".toList ∉
        (ProcessConnection textEnv [] [got "set foo 0 0 3\r\n", got "bar", got "\r\n"]).2.trace := by
  decide

/-- C2 as the code has it: on an idle connection a read completes a header
that declares the argument length `L > 0` (with `L + 2` within
`std::size_t`); the bytes that follow the header are the rest of that read
and the bytes of the reads `others`, however they are split, and there are at
least `L + 2` of them. Then the first effect of `ProcessConnection` after the
header is the call of `Execute` for that command, and its argument is the `L`
payload bytes followed by the 2 bytes of the terminator. -/
theorem argument_is_payload_with_terminator (env : Env σ Cmd Store) (c0 : Conn σ Cmd Store)
    (first : Bytes) (others rest : List ReadStep) (p p1 : σ) (n L : Nat) (cmd : Cmd)
    (hidle : c0.command_to_execute = none) (hempty : c0.argument_for_command = [])
    (hfirst : first.length ≤ BUFFER_SIZE)
    (hparse : env.lexer.Parse c0.parser first = .ok (p, n, true))
    (hn : 0 < n ∧ n ≤ first.length)
    (hbuild : env.lexer.Build p = .ok (p1, cmd, L))
    (hL : 0 < L) (hfit : L + 2 < SIZE_MOD)
    (hothers : ∀ s ∈ others, Delivers s)
    (hall : L + 2 ≤ (first.drop n ++ payload others).length) :
    (∃ more,
      (resume env c0 ({ result := .data first, running := true } :: others ++ rest)).2.trace =
        c0.trace ++
          Event.execute cmd
              ((first.drop n ++ payload others).take L ++
                ((first.drop n ++ payload others).drop L).take 2) :: more) ∧
      ((first.drop n ++ payload others).take L).length = L ∧
      (((first.drop n ++ payload others).drop L).take 2).length = 2 := by
  have hneed : argRemainsAfterBuild L = L + 2 := argRemainsAfterBuild_fits hL hfit
  have hlen := hall
  rw [List.length_append] at hlen
  refine ⟨?_, by rw [List.length_take]; omega, by rw [List.length_take, List.length_drop]; omega⟩
  obtain ⟨mf, hf⟩ := finish_trace env
    (readLoop env ({ result := .data first, running := true } :: others ++ rest) c0)
  have key : ∃ more,
      (readLoop env ({ result := .data first, running := true } :: others ++ rest) c0).2.trace =
        c0.trace ++ Event.execute cmd ((first.drop n ++ payload others).take (L + 2)) :: more := by
    rw [List.cons_append, readLoop]
    simp only
    rw [if_pos ⟨by omega, Or.inl trivial⟩,
      processRead_header env hidle hparse hn hbuild (by omega)]
    rcases Nat.eq_zero_or_pos (first.drop n).length with hz | hpos
    · have hnil : first.drop n = [] := List.length_eq_zero.mp hz
      rw [hnil, processRead_nil]
      simp only [afterPass, List.nil_append]
      obtain ⟨more, hm⟩ := readLoop_executes env others
        { c0 with parser := p1, command_to_execute := some cmd,
                  arg_remains := argRemainsAfterBuild L }
        cmd rest rfl (by show 0 < argRemainsAfterBuild L; omega) hothers
        (by show argRemainsAfterBuild L ≤ _; omega)
      refine ⟨more, ?_⟩
      rw [hm]
      simp only [hempty, hneed, List.nil_append]
    · have hstep : afterPass (fun c1 => readLoop env (others ++ rest) c1)
          (processRead env
            { c0 with parser := p1, command_to_execute := some cmd,
                      arg_remains := argRemainsAfterBuild L } (first.drop n)) =
          readLoop env
            (({ result := .data (first.drop n), running := true } :: others) ++ rest)
            { c0 with parser := p1, command_to_execute := some cmd,
                      arg_remains := argRemainsAfterBuild L } := by
        rw [List.cons_append, readLoop]
        simp only
        rw [if_pos ⟨hpos, Or.inl trivial⟩]
      rw [hstep]
      obtain ⟨more, hm⟩ := readLoop_executes env
        ({ result := .data (first.drop n), running := true } :: others)
        { c0 with parser := p1, command_to_execute := some cmd,
                  arg_remains := argRemainsAfterBuild L }
        cmd rest rfl (by show 0 < argRemainsAfterBuild L; omega)
        (fun s hs => by
          rcases List.mem_cons.mp hs with h | h
          · subst h
            exact ⟨hpos, by rw [List.length_drop]; omega⟩
          · exact hothers s h)
        (by
          show argRemainsAfterBuild L ≤ _
          rw [payload_cons, List.length_append]
          simp only [ReadResult.bytes]
          omega)
      refine ⟨more, ?_⟩
      rw [hm]
      simp only [hempty, hneed, List.nil_append, payload_cons, ReadResult.bytes]
  obtain ⟨more, hk⟩ := key
  refine ⟨more ++ mf, ?_⟩
  unfold resume
  rw [hf, hk, List.take_add]
  simp only [List.append_assoc, List.cons_append]

/-- C2 as the code has it, at the scenario of the specification: the header
`set foo 0 0 3\r\n`, then `bar`, then `\r\n` in three reads; the argument is
`bar\r\n`. -/
theorem argument_is_payload_with_terminator_witness :
    textEnv.lexer.Parse (initial textEnv []).parser "set foo 0 0 3\r\n".toList =
        .ok ("set foo 0 0 3".toList, 15, true) ∧
      textEnv.lexer.Build "set foo 0 0 3".toList =
        .ok ("set foo 0 0 3".toList, "set foo 0 0 3".toList, 3) ∧
      ∃ more,
        (resume textEnv (initial textEnv [])
            (got "set foo 0 0 3\r\n" :: [got "bar", got "\r\n"] ++ [])).2.trace =
          [] ++ Event.execute "set foo 0 0 3".toList ("bar".toList ++ "\r\n".toList) :: more :=
  ⟨rfl, rfl,
    (argument_is_payload_with_terminator textEnv (initial textEnv [])
      "set foo 0 0 3\r\n".toList [got "bar", got "\r\n"] []
      "set foo 0 0 3".toList "set foo 0 0 3".toList 15 3 "set foo 0 0 3".toList
      rfl rfl (by decide) rfl (by decide) rfl (by decide) (by decide)
      (by decide)
      (by decide)).1⟩

/-! ## C4: the size of the reads does not matter -/

/-- Chunk-size independence of `ProcessConnection` for lexers that take
their input one byte at a time (`Incremental`). `reads₁` and `reads₂` are two
ways of delivering the same stream of bytes as non-empty reads of at most
4096 bytes, all received while `running` is true; after them the script goes
on in the same way (`ending`: nothing, the peer closing, a failure). Then the
commands executed, with their arguments, are the same, the responses sent are
the same, and so are the whole trace of effects and the way the function
ends. With such a lexer the `break` of line 122 is never taken. -/
theorem chunk_size_independence (env : Env σ Cmd Store) (storage : Store)
    (reads₁ reads₂ : List Bytes) (ending : List ReadStep)
    (hinc : Incremental env.lexer)
    (h₁ : ∀ b ∈ reads₁, 0 < b.length ∧ b.length ≤ BUFFER_SIZE)
    (h₂ : ∀ b ∈ reads₂, 0 < b.length ∧ b.length ≤ BUFFER_SIZE)
    (hsame : reads₁.flatten = reads₂.flatten) :
    executed (ProcessConnection env storage (reads₁.map delivered ++ ending)).2.trace =
        executed (ProcessConnection env storage (reads₂.map delivered ++ ending)).2.trace ∧
      responses (ProcessConnection env storage (reads₁.map delivered ++ ending)).2.trace =
        responses (ProcessConnection env storage (reads₂.map delivered ++ ending)).2.trace ∧
      (ProcessConnection env storage (reads₁.map delivered ++ ending)).2.trace =
        (ProcessConnection env storage (reads₂.map delivered ++ ending)).2.trace ∧
      (ProcessConnection env storage (reads₁.map delivered ++ ending)).1 =
        (ProcessConnection env storage (reads₂.map delivered ++ ending)).1 := by
  obtain ⟨step, hstep⟩ := hinc
  have e₁ := readLoop_chunks env step hstep ending reads₁ (initial env storage)
    (fun b hb => (h₁ b hb).1)
  have e₂ := readLoop_chunks env step hstep ending reads₂ (initial env storage)
    (fun b hb => (h₂ b hb).1)
  rw [hsame] at e₁
  have hv : verdict (ProcessConnection env storage (reads₁.map delivered ++ ending)) =
      verdict (ProcessConnection env storage (reads₂.map delivered ++ ending)) :=
    e₁.trans e₂.symm
  have htrace : (ProcessConnection env storage (reads₁.map delivered ++ ending)).2.trace =
      (ProcessConnection env storage (reads₂.map delivered ++ ending)).2.trace := by
    have h := congrArg Prod.snd hv
    exact h
  have hstatus : (ProcessConnection env storage (reads₁.map delivered ++ ending)).1 =
      (ProcessConnection env storage (reads₂.map delivered ++ ending)).1 := by
    have h := congrArg Prod.fst hv
    exact h
  exact ⟨by rw [htrace], by rw [htrace], htrace, hstatus⟩

/-- Chunk-size independence at the text protocol, whose lexer takes its input
one byte at a time: the stream `set foo 0 0 3\r\nbar\r\nget foo\r\n` in four
reads and in one. -/
theorem chunk_size_independence_witness :
    ["set foo 0 0 3\r\n".toList, "ba".toList, "r\r\nget f".toList, "oo\r\n".toList].flatten =
        ["set foo 0 0 3\r\nbar\r\nget foo\r\n".toList].flatten ∧
      responses (ProcessConnection textEnv []
          (["set foo 0 0 3\r\n".toList, "ba".toList, "r\r\nget f".toList, "oo\r\n".toList].map
            delivered ++ [peerClosed])).2.trace =
        responses (ProcessConnection textEnv []
          (["set foo 0 0 3\r\nbar\r\nget foo\r\n".toList].map delivered ++ [peerClosed])).2.trace :=
  ⟨by decide,
    (chunk_size_independence textEnv []
      ["set foo 0 0 3\r\n".toList, "ba".toList, "r\r\nget f".toList, "oo\r\n".toList]
      ["set foo 0 0 3\r\nbar\r\nget foo\r\n".toList] [peerClosed]
      ⟨headerStep, fun _ _ => rfl⟩ (by decide) (by decide) (by decide)).2.1⟩

/-- C4: what the code does with a lexer that answers "zero bytes consumed"
while the buffer holds no complete header, as its contract allows. The stream
`set a 0 0 1\r\nx\r\nget a\r\n` is delivered, while `running` is true, once in
one read and once in the two reads `set a 0 0 1\r\nx\r\nge` and `t a\r\n`. The
commands executed and the responses sent differ: after the `break` of line
122 the next `read` overwrites the unconsumed `ge`, so the second delivery
executes `t a` and answers `ERROR` where the first executes `get a` and
answers with the value. -/
theorem chunk_size_changes_commands :
    ["set a 0 0 1\r\nx\r\nget a\r\n".toList].flatten =
        ["set a 0 0 1\r\nx\r\nge".toList, "t a\r\n".toList].flatten ∧
      executed (ProcessConnection lineEnv []
          (["set a 0 0 1\r\nx\r\nget a\r\n".toList].map delivered)).2.trace =
        [("set a 0 0 1".toList, "x\r\n".toList), ("get a".toList, [])] ∧
      executed (ProcessConnection lineEnv []
          (["set a 0 0 1\r\nx\r\nge".toList, "t a\r\n".toList].map delivered)).2.trace =
        [("set a 0 0 1".toList, "x\r\n".toList), ("t a".toList, [])] ∧
      responses (ProcessConnection lineEnv []
          (["set a 0 0 1\r\nx\r\nget a\r\n".toList].map delivered)).2.trace =
        ["STORED\r\n".toList, "VALUE x\r\n\r\n".toList] ∧
      responses (ProcessConnection lineEnv []
          (["set a 0 0 1\r\nx\r\nge".toList, "t a\r\n".toList].map delivered)).2.trace =
        ["STORED\r\n".toList, "ERROR\r\n".toList] := by
  decide

/-! ## C5: pipelined commands -/

theorem serve_sendCount (env : Env σ Cmd Store) (cmds : List (Cmd × Bytes)) :
    ∀ (st st1 : Store) (trace trace1 : List (Event Cmd)),
      serve env cmds st trace = some (st1, trace1) →
      sendCount trace1 = sendCount trace + cmds.length := by
  induction cmds with
  | nil =>
    intro st st1 trace trace1 h
    simp only [serve, Option.some.injEq, Prod.mk.injEq] at h
    rw [← h.2]
    rfl
  | cons head rest ih =>
    intro st st1 trace trace1 h
    obtain ⟨cmd, argument⟩ := head
    unfold serve at h
    split at h
    · split at h
      · have := ih _ _ _ _ h
        rw [this]
        simp [sendCount]
        omega
      · cases h
    · cases h

/-- A `Parse` that consumes bytes without completing a header: the pass goes
on with the lexer state it left and the bytes behind those it consumed. -/
theorem processRead_partial_progress (env : Env σ Cmd Store) {c : Conn σ Cmd Store}
    {buf : Bytes} {p : σ} {n : Nat} (hidle : c.command_to_execute = none)
    (hparse : env.lexer.Parse c.parser buf = .ok (p, n, false))
    (hn : 0 < n ∧ n ≤ buf.length) :
    processRead env c buf = processRead env { c with parser := p } (buf.drop n) := by
  rw [processRead_idle_parse env hidle hparse hn]
  simp only [buildCommand, Bool.false_eq_true, if_false]
  have hfill : fillArgument { c with parser := p } (buf.drop n) =
      ({ c with parser := p }, buf.drop n) := by
    unfold fillArgument
    rw [if_neg (by simp [hidle])]
  rw [hfill]
  simp only
  rw [runCommand_idle env (c := { c with parser := p }) hidle]

/-- A `Parse` that consumes nothing, or more than it was given, ends the pass
without any effect. -/
theorem processRead_no_progress (env : Env σ Cmd Store) {c : Conn σ Cmd Store}
    {buf : Bytes} {p : σ} {n : Nat} {found : Bool} (hidle : c.command_to_execute = none)
    (hne : buf.length ≠ 0)
    (hparse : env.lexer.Parse c.parser buf = .ok (p, n, found))
    (hn : n = 0 ∨ buf.length < n) :
    (processRead env c buf).2.1.trace = c.trace := by
  rw [processRead_unfold, if_neg hne]
  cases h1 : parseHeader env c buf with
  | stop e c1 b1 => exact (parseHeader_trace env c buf).2 e c1 b1 h1
  | next c1 b1 =>
    exfalso
    unfold parseHeader at h1
    rw [hidle] at h1
    simp only [hparse] at h1
    split at h1
    · cases h1
    · obtain ⟨_, h2, h3, _⟩ := shiftParsed_next h1
      omega

/-- Where no complete header stands at the front of the unread bytes, the
pass over them has no effect. -/
theorem front_nothing (env : Env σ Cmd Store) (fuel : Nat) :
    ∀ (c : Conn σ Cmd Store) (buf : Bytes), c.command_to_execute = none →
      frontCommand env.lexer fuel c.parser buf = .nothing → buf.length ≤ fuel →
      (processRead env c buf).2.1.trace = c.trace := by
  induction fuel with
  | zero =>
    intro c buf _ _ hlen
    have : buf = [] := List.length_eq_zero.mp (by omega)
    subst this
    rw [processRead_nil]
  | succ fuel ih =>
    intro c buf hidle hfront hlen
    unfold frontCommand at hfront
    split at hfront
    · rename_i hz
      have : buf = [] := List.length_eq_zero.mp hz
      subst this
      rw [processRead_nil]
    · rename_i hne
      split at hfront
      · rename_i f hparse
        rw [processRead_idle_error env hidle (fun h => hne (by rw [h]; rfl)) hparse]
      · rename_i p n found hparse
        split at hfront
        · rename_i hn
          exact processRead_no_progress env hidle hne hparse hn
        · rename_i hn
          split at hfront
          · rename_i hfound
            subst hfound
            split at hfront
            · rename_i f hbuild
              rw [processRead_build_error env hidle hparse ⟨by omega, by omega⟩ hbuild]
            · split at hfront <;> cases hfront
          · rename_i hfound
            have hf : found = false := by simpa using hfound
            subst hf
            rw [processRead_partial_progress env hidle hparse ⟨by omega, by omega⟩]
            exact ih { c with parser := p } (buf.drop n) hidle hfront
              (by rw [List.length_drop]; omega)

/-- Where the read ends inside the argument phase of the command at the
front, and the length it declares is within `std::size_t`, the pass has no
effect. -/
theorem front_cut (env : Env σ Cmd Store) (fuel : Nat) :
    ∀ (c : Conn σ Cmd Store) (buf : Bytes) (L : Nat), c.command_to_execute = none →
      frontCommand env.lexer fuel c.parser buf = .cut L → L + 2 < SIZE_MOD →
      (processRead env c buf).2.1.trace = c.trace := by
  induction fuel with
  | zero =>
    intro c buf L _ hfront _
    simp [frontCommand] at hfront
  | succ fuel ih =>
    intro c buf L hidle hfront hfit
    unfold frontCommand at hfront
    split at hfront
    · cases hfront
    · split at hfront
      · cases hfront
      · rename_i p n found hparse
        split at hfront
        · cases hfront
        · rename_i hn
          split at hfront
          · rename_i hfound
            subst hfound
            split at hfront
            · cases hfront
            · rename_i p1 cmd L1 hbuild
              split at hfront
              · cases hfront
              · rename_i hshort
                simp only [Front.cut.injEq] at hfront
                subst hfront
                have hL : 0 < L1 := by
                  rcases Nat.eq_zero_or_pos L1 with hz | hp
                  · subst hz
                    exact absurd (Nat.zero_le _) hshort
                  · exact hp
                have hphase : argumentPhaseBytes L1 = L1 + 2 := by
                  unfold argumentPhaseBytes
                  rw [if_pos hL]
                have hneed : argRemainsAfterBuild L1 = L1 + 2 := argRemainsAfterBuild_fits hL hfit
                rw [hphase] at hshort
                rw [processRead_header env hidle hparse ⟨by omega, by omega⟩ hbuild (by omega),
                  processRead_fill_short env
                    (c := { c with parser := p1, command_to_execute := some cmd,
                                   arg_remains := argRemainsAfterBuild L1 })
                    (buf.drop n) rfl (by simp only [hneed]; omega)]
          · rename_i hfound
            have hf : found = false := by simpa using hfound
            subst hf
            rw [processRead_partial_progress env hidle hparse ⟨by omega, by omega⟩]
            exact ih { c with parser := p } (buf.drop n) L hidle hfront hfit

/-- Where a complete command stands at the front of the unread bytes of a
read, and its `Execute` and `send` succeed, the pass executes it, sends its
response, and goes on idle over the bytes behind the command. -/
theorem front_command (env : Env σ Cmd Store) (fuel : Nat) :
    ∀ (c : Conn σ Cmd Store) (buf : Bytes) (cmd : Cmd) (argument : Bytes) (reset : σ)
      (rest : Bytes) (st : Store) (result : Bytes),
      c.command_to_execute = none → c.argument_for_command = [] →
      buf.length ≤ BUFFER_SIZE →
      frontCommand env.lexer fuel c.parser buf = .command cmd argument reset rest →
      env.Execute cmd c.storage argument = (st, .ok result) →
      env.send (c.trace ++ [Event.execute cmd argument]) (result ++ CRLF) = true →
      processRead env c buf =
          processRead env
            { c with
              arg_remains := 0
              parser := reset
              argument_for_command := []
              command_to_execute := none
              storage := st
              trace := c.trace ++ [Event.execute cmd argument] ++ [Event.send (result ++ CRLF)] }
            rest ∧
        rest.length < buf.length := by
  have hbig : BUFFER_SIZE + 2 < SIZE_MOD := by decide
  induction fuel with
  | zero =>
    intro c buf cmd argument reset rest st result _ _ _ hfront _ _
    simp [frontCommand] at hfront
  | succ fuel ih =>
    intro c buf cmd argument reset rest st result hidle hempty hlen hfront hx hs
    unfold frontCommand at hfront
    split at hfront
    · cases hfront
    · split at hfront
      · cases hfront
      · rename_i p n found hparse
        split at hfront
        · cases hfront
        · rename_i hn
          have hn' : 0 < n ∧ n ≤ buf.length := ⟨by omega, by omega⟩
          split at hfront
          · rename_i hfound
            subst hfound
            split at hfront
            · cases hfront
            · rename_i p1 cmd1 L hbuild
              split at hfront
              · rename_i hfull
                simp only [Front.command.injEq] at hfront
                obtain ⟨hcmd, harg, hreset, hrest⟩ := hfront
                subst hcmd harg hreset hrest
                have hdrop : (buf.drop n).length < buf.length := by
                  rw [List.length_drop]; omega
                refine ⟨?_, by rw [List.length_drop]; omega⟩
                rcases Nat.eq_zero_or_pos L with hz | hL
                · subst hz
                  have hzero : argRemainsAfterBuild 0 = 0 := rfl
                  have hphase : argumentPhaseBytes 0 = 0 := rfl
                  rw [hphase] at hx hs ⊢
                  simp only [List.take_zero, List.drop_zero] at hx hs ⊢
                  rw [processRead_header_no_argument env hidle hparse hn' hbuild hzero]
                  have hrun := runCommand_success env
                    (c := { c with parser := p1, command_to_execute := some cmd1,
                                   arg_remains := 0 })
                    rfl rfl (by simp only [hempty]; exact hx) (by simp only [hempty]; exact hs)
                  rw [hrun]
                  simp only [hempty]
                · have hphase : argumentPhaseBytes L = L + 2 := by
                    unfold argumentPhaseBytes
                    rw [if_pos hL]
                  rw [hphase] at hx hs hfull ⊢
                  have hneed : argRemainsAfterBuild L = L + 2 :=
                    argRemainsAfterBuild_fits hL (by omega)
                  rw [processRead_header env hidle hparse hn' hbuild (by omega)]
                  have hfill := processRead_fill_complete env
                    (c := { c with parser := p1, command_to_execute := some cmd1,
                                   arg_remains := argRemainsAfterBuild L })
                    (buf.drop n) rfl (by simp only; omega) (by simp only; omega)
                  rw [hfill]
                  simp only [hneed, hempty, List.nil_append]
                  have hrun := runCommand_success env
                    (c := { c with parser := p1, command_to_execute := some cmd1,
                                   arg_remains := 0,
                                   argument_for_command := (buf.drop n).take (L + 2) })
                    rfl rfl hx hs
                  rw [hrun]
              · cases hfront
          · rename_i hfound
            have hf : found = false := by simpa using hfound
            subst hf
            rw [processRead_partial_progress env hidle hparse hn']
            have h := ih { c with parser := p } (buf.drop n) cmd argument reset rest st result
              hidle hempty (by rw [List.length_drop]; omega) hfront hx hs
            refine ⟨h.1, ?_⟩
            have := h.2
            rw [List.length_drop] at this
            omega

theorem pipelined_pass (env : Env σ Cmd Store) (fuel : Nat) :
    ∀ (c : Conn σ Cmd Store) (buf : Bytes) (st : Store) (trace : List (Event Cmd)),
      c.command_to_execute = none → c.argument_for_command = [] →
      buf.length ≤ BUFFER_SIZE → buf.length ≤ fuel →
      (∀ L, (splitCommands env.lexer fuel c.parser buf).2 = some L → L + 2 < SIZE_MOD) →
      serve env (splitCommands env.lexer fuel c.parser buf).1 c.storage c.trace =
        some (st, trace) →
      (processRead env c buf).2.1.trace = trace := by
  induction fuel with
  | zero =>
    intro c buf st trace _ _ _ hfuel _ hserve
    have : buf = [] := List.length_eq_zero.mp (by omega)
    subst this
    simp only [splitCommands, serve, Option.some.injEq, Prod.mk.injEq] at hserve
    rw [processRead_nil]
    exact hserve.2
  | succ fuel ih =>
    intro c buf st trace hidle hempty hlen hfuel hcut hserve
    unfold splitCommands at hcut hserve
    cases hfront : frontCommand env.lexer buf.length c.parser buf with
    | nothing =>
      rw [hfront] at hserve
      simp only [serve, Option.some.injEq, Prod.mk.injEq] at hserve
      rw [front_nothing env buf.length c buf hidle hfront (Nat.le_refl _)]
      exact hserve.2
    | cut L =>
      rw [hfront] at hserve hcut
      simp only [serve, Option.some.injEq, Prod.mk.injEq] at hserve
      rw [front_cut env buf.length c buf L hidle hfront (hcut L rfl)]
      exact hserve.2
    | command cmd argument reset rest =>
      rw [hfront] at hserve hcut
      simp only at hserve hcut
      unfold serve at hserve
      split at hserve
      · rename_i st1 result hx
        split at hserve
        · rename_i hs
          obtain ⟨hpass, hshort⟩ := front_command env buf.length c buf cmd argument reset rest
            st1 result hidle hempty hlen hfront hx hs
          rw [hpass]
          exact ih _ rest st trace rfl rfl (by omega) (by omega) hcut hserve
        · cases hserve
      · cases hserve

/-- A single read on a connection that is blocked in `read` afterwards has
the effects of the pass over it. -/
theorem readLoop_single (env : Env σ Cmd Store) (c : Conn σ Cmd Store) (buf : Bytes) :
    (readLoop env [{ result := .data buf, running := true }] c).2.trace =
      (processRead env c buf).2.1.trace := by
  rw [readLoop]
  simp only
  split
  · rcases hr : processRead env c buf with ⟨e, c1, b1⟩
    cases e <;> rfl
  · rename_i h
    have hz : buf = [] := by
      apply List.length_eq_zero.mp
      by_contra hne
      exact h ⟨Nat.pos_of_ne_zero hne, Or.inl trivial⟩
    subst hz
    rw [processRead_nil]

/-- C5 fails as stated. A read with the two complete commands `delete a` and
`get b`, the first of which raises a `std::runtime_error`: no response is
sent. A read with one complete command followed by a header that declares an
argument of `2 ^ 64 - 2` bytes: `arg_remains` wraps to 0 and two responses are
sent. A read with two complete commands that arrives after `running` was
cleared: no response is sent. -/
theorem pipelined_responses_counterexample :
    ((splitCommands textEnv.lexer "delete a\r\nget b\r\n".toList.length
          (initial textEnv []).parser "delete a\r\nget b\r\n".toList).1.length = 2 ∧
        sendCount (ProcessConnection textEnv [] [got "delete a\r\nget b\r\n"]).2.trace = 0) ∧
      ((splitCommands textEnv.lexer "get a\r\nset k 0 0 18446744073709551614\r\n".toList.length
          (initial textEnv []).parser
          "get a\r\nset k 0 0 18446744073709551614\r\n".toList).1.length = 1 ∧
        sendCount (ProcessConnection textEnv []
          [got "get a\r\nset k 0 0 18446744073709551614\r\n"]).2.trace = 2) ∧
      ((splitCommands textEnv.lexer "get a\r\nget b\r\n".toList.length
          (initial textEnv []).parser "get a\r\nget b\r\n".toList).1.length = 2 ∧
        sendCount (ProcessConnection textEnv [] [gotStopped "get a\r\nget b\r\n"]).2.trace = 0) := by
  decide

/-- C5 as the code has it: a read of at most 4096 bytes arrives, while
`running` is true, on an idle connection (no command pending, accumulator
empty). `splitCommands` gives the `k` complete pipelined commands it
contains, whatever follows them in the read; a further command cut by the end
of the read declares a length within `std::size_t`; and every `Execute` and
every `send` for those `k` commands succeeds (`serve` gives the effects of
serving them one by one). Then the effects of `ProcessConnection` for that
read are exactly those of `serve`: after the trace so far come, for each
command in order, the call of `Execute` and then the `send` of its result
followed by `\r\n`, so that command `i + 1` is executed after the response of
command `i` has been written, and exactly `k` responses are sent. -/
theorem pipelined_commands_answered_in_order (env : Env σ Cmd Store) (c : Conn σ Cmd Store)
    (buf : Bytes) (st : Store) (trace : List (Event Cmd))
    (hidle : c.command_to_execute = none) (hempty : c.argument_for_command = [])
    (hlen : buf.length ≤ BUFFER_SIZE)
    (hcut : ∀ L, (splitCommands env.lexer buf.length c.parser buf).2 = some L →
      L + 2 < SIZE_MOD)
    (hserve : serve env (splitCommands env.lexer buf.length c.parser buf).1 c.storage c.trace =
      some (st, trace)) :
    (readLoop env [{ result := .data buf, running := true }] c).2.trace = trace ∧
      (processRead env c buf).2.1.trace = trace ∧
      sendCount trace =
        sendCount c.trace + (splitCommands env.lexer buf.length c.parser buf).1.length := by
  have h := pipelined_pass env buf.length c buf st trace hidle hempty hlen (Nat.le_refl _)
    hcut hserve
  exact ⟨(readLoop_single env c buf).trans h, h, serve_sendCount env _ _ _ _ _ hserve⟩

/-- C5 as the code has it, at the text protocol: `set a 0 0 1\r\nx\r\n` and
`get a\r\n` in one read, followed by the beginning of a third command, give
`STORED\r\n` and then the value, in that order, and nothing else. -/
theorem pipelined_commands_answered_in_order_witness :
    splitCommands textEnv.lexer "set a 0 0 1\r\nx\r\nget a\r\nget".toList.length
        (initial textEnv []).parser "set a 0 0 1\r\nx\r\nget a\r\nget".toList =
        ([("set a 0 0 1".toList, "x\r\n".toList), ("get a".toList, [])], none) ∧
      (readLoop textEnv [{ result := .data "set a 0 0 1\r\nx\r\nget a\r\nget".toList,
                           running := true }] (initial textEnv [])).2.trace =
        [Event.execute "set a 0 0 1".toList "x\r\n".toList, Event.send "STORED\r\n".toList,
          Event.execute "get a".toList [], Event.send "VALUE x\r\n\r\n".toList] :=
  ⟨by decide,
    (pipelined_commands_answered_in_order textEnv (initial textEnv [])
      "set a 0 0 1\r\nx\r\nget a\r\nget".toList
      [("a".toList, "x\r\n".toList)]
      [Event.execute "set a 0 0 1".toList "x\r\n".toList, Event.send "STORED\r\n".toList,
        Event.execute "get a".toList [], Event.send "VALUE x\r\n\r\n".toList]
      rfl rfl (by decide) (by decide) (by decide)).1⟩

/-! ## C6: shutdown while an argument is being filled -/

/-- C7 fails as stated: `incr n` on a value that is not a number makes
`Execute` raise an exception that is not a `std::runtime_error`; it passes the
handler of line 166 and leaves `ProcessConnection`, and the socket is never
closed. -/
theorem other_fault_skips_close_counterexample :
    (ProcessConnection textEnv [] [got "set n 0 0 1\r\nx\r\nincr n\r\n", peerClosed]).1 =
        Status.propagated ∧
      Event.close ∉
        (ProcessConnection textEnv [] [got "set n 0 0 1\r\nx\r\nincr n\r\n", peerClosed]).2.trace := by
  decide

/-- C7 as the code has it: whenever `ProcessConnection` leaves its read loop
(it is not left blocked in `read`) in any way but by an exception that is not
a `std::runtime_error`, that is by peer EOF, a read error, shutdown, a
`std::runtime_error` of the lexer, of the command builder or of `Execute`, or
a failed `send`, the function returns, the socket has been closed exactly
once, and the pending command, the accumulator and the parser state have been
discarded. The lexer is taken to report no more bytes than it was given. -/
theorem leaving_the_loop_closes_once (env : Env σ Cmd Store) (storage : Store)
    (script : List ReadStep)
    (hlexer : ∀ s input p parsed found,
      env.lexer.Parse s input = .ok (p, parsed, found) → parsed ≤ input.length)
    (hleft : (readLoop env script (initial env storage)).1 ≠ LoopExit.blockedInRead)
    (hfault : (readLoop env script (initial env storage)).1 ≠ LoopExit.thrown .other) :
    (ProcessConnection env storage script).1 = Status.returned ∧
      closeCount (ProcessConnection env storage script).2.trace = 1 ∧
      (ProcessConnection env storage script).2.command_to_execute = none ∧
      (ProcessConnection env storage script).2.argument_for_command = [] ∧
      (ProcessConnection env storage script).2.parser =
        env.lexer.Reset (readLoop env script (initial env storage)).2.parser := by
  have hcount := readLoop_closeCount env script (initial env storage)
  have hexit := readLoop_exit env script (initial env storage)
  unfold ProcessConnection resume
  rcases hr : readLoop env script (initial env storage) with ⟨e, c⟩
  rw [hr] at hcount hexit hleft hfault
  simp only at hcount hexit hleft hfault
  have hzero : closeCount c.trace = 0 := by rw [hcount]; rfl
  cases e with
  | blockedInRead => exact absurd rfl hleft
  | exited n =>
    simp only [finish, closeConnection, closeCount_append, hzero]
    exact ⟨trivial, rfl, trivial, trivial, trivial⟩
  | thrown f =>
    cases f with
    | runtime w =>
      simp only [finish, closeConnection, closeCount_append, hzero]
      exact ⟨trivial, rfl, trivial, trivial, trivial⟩
    | other => exact absurd rfl hfault
  | undefinedBehaviour => exact absurd rfl (hexit.2 hlexer)
  | outOfFuel => exact absurd rfl hexit.1

/-- C7 as the code has it, at the text protocol: `delete a` raises a
`std::runtime_error`, and the socket is closed once. -/
theorem leaving_the_loop_closes_once_witness :
    (readLoop textEnv [got "delete a\r\nget b\r\n", peerClosed] (initial textEnv [])).1 ≠
        LoopExit.blockedInRead ∧
      (readLoop textEnv [got "delete a\r\nget b\r\n", peerClosed] (initial textEnv [])).1 ≠
        LoopExit.thrown .other ∧
      (ProcessConnection textEnv [] [got "delete a\r\nget b\r\n", peerClosed]).1 =
        Status.returned ∧
      closeCount (ProcessConnection textEnv [] [got "delete a\r\nget b\r\n", peerClosed]).2.trace =
        1 :=
  have h := leaving_the_loop_closes_once textEnv [] [got "delete a\r\nget b\r\n", peerClosed]
    (fun s input p parsed found hp => runLexer_parsed_le headerStep input s p parsed found hp)
    (by decide) (by decide)
  ⟨by decide, by decide, h.1, h.2.1⟩

/-! ## C8: a header that declares no argument -/

/-- C9: what the code does when the lexer consumes nothing of a non-empty
buffer. The stream `get foo\r\n` arrives as `ge` and `t foo\r\n`, and the
lexer takes a header only when all of it is there. After the `break` the next
`read` overwrites `client_buffer`: the bytes `ge` are never offered to the
lexer again and the command executed is `t foo`; when the same stream arrives
in one read it is `get foo`. -/
theorem unconsumed_bytes_are_overwritten :
    (ProcessConnection lineEnv [] [got "ge", got "t foo\r\n", peerClosed]).2.trace =
        [Event.execute "t foo".toList [], Event.send "ERROR\r\n".toList, Event.close] ∧
      (ProcessConnection lineEnv [] [got "get foo\r\n", peerClosed]).2.trace =
        [Event.execute "get foo".toList [], Event.send "END\r\n".toList, Event.close] := by
  decide

end Afina.Network.MTblocking
